import Mathlib

/-!
Verification development for the html-rust markup parser.

The data model and the operations below are a shallow embedding of the
repository's source:
  * `src/dom/payload.rs` — `Tag`, `Payload`;
  * `src/dom/mod.rs` — `Node`/`NodeData` (tree shape, child attachment,
    structural equality); ownership/parent links are modelled separately
    by a small arena (`ANode`/`Arena`) as an explicit lookup table;
  * `src/parser/mod.rs` — the tokenizer (`parse_tag_attr_value`,
    `get_tag_end`, `parse_tag_attr`, `parse_tag_name`, `parse_tag`,
    `parse_comment`, `parse_text`, `parse_text_script`,
    `create_node_vec`) and the tree builder (`find_terminator`,
    `create_node_tree`), and the entry point `parse`.
The cursor scanner `Input` (module `src/parser/input.rs`, not part of the
reviewed sources) is modelled from the specification, section 4.1.

Strings are embedded as `List Char` (the scanner positions are Unicode
scalar positions).  Rust loops are embedded as structurally recursive
functions on an explicit fuel counter; the fuel passed by callers is
larger than the number of iterations any run can perform (each iteration
moves the cursor forward by at least one), and exhaustion yields the
distinguished error "Out of fuel." which no real code path produces.
-/

namespace HtmlRust

/-- Attribute maps (`HashMap<String, String>` in the source) are embedded as
association lists with insert-replaces-existing-key semantics; lookups and
key removal agree with the map semantics of the source. -/
abbrev AttrMap := List (List Char × List Char)

/-- `HashMap::insert`: replace the value when the key is present, otherwise
add the binding. -/
def insertAttr (m : AttrMap) (k v : List Char) : AttrMap :=
  if m.any (fun kv => kv.1 == k) then
    m.map (fun kv => if kv.1 == k then (k, v) else kv)
  else
    m ++ [(k, v)]

/-- `HashMap::remove`'s effect on the map. -/
def removeAttr (m : AttrMap) (k : List Char) : AttrMap :=
  m.filter (fun kv => !(kv.1 == k))

/-- `HashMap::get` as used by `Tag::get_attribute_value`. -/
def lookupAttr (m : AttrMap) (k : List Char) : Option (List Char) :=
  match m.find? (fun kv => kv.1 == k) with
  | some kv => some kv.2
  | none => none

/-- `Tag` from `src/dom/payload.rs`: name, optional attribute map,
self-closing flag, end-tag (`terminator`) flag. -/
structure Tag where
  name : List Char
  attrs : Option AttrMap
  self_closing : Bool
  terminator : Bool
deriving DecidableEq, Repr

/-- `Tag::new`: named tag, no attributes, both flags false. -/
def Tag.new (name : List Char) : Tag :=
  { name := name, attrs := none, self_closing := false, terminator := false }

/-- `Payload` from `src/dom/payload.rs`. -/
inductive Payload where
  | tag (t : Tag)
  | text (s : List Char)
  | comment (s : List Char)
deriving DecidableEq, Repr

/-- A DOM node (`Node`/`NodeData` from `src/dom/mod.rs`) as seen through
payload and owned children; the non-owning parent back-reference is
modelled separately by the arena below. -/
inductive Node where
  | mk (payload : Payload) (children : List Node)

def Node.payload : Node → Payload
  | .mk p _ => p

def Node.children : Node → List Node
  | .mk _ c => c

mutual

/-- `NodeData::eq` (`src/dom/mod.rs` lines 49-54): structural equality
comparing the payload and, recursively, the owned children; the parent
back-reference takes no part. -/
def nodeEq : Node → Node → Bool
  | .mk p1 c1, .mk p2 c2 => p1 == p2 && nodeEqList c1 c2

/-- `Vec<Rc<NodeData>>` equality as used by `NodeData::eq`: equal lengths
and elementwise `NodeData::eq`. -/
def nodeEqList : List Node → List Node → Bool
  | [], [] => true
  | x :: xs, y :: ys => nodeEq x y && nodeEqList xs ys
  | _, _ => false

end

/-- `Node::new(payload)`: fresh node, no children. -/
def Node.new (payload : Payload) : Node := .mk payload []

/-- The child-list half of `Node::add_child_and_update_parent`: append the
child to the parent's ordered child sequence.  (The parent back-reference
half is modelled by `addChildA` on the arena.) -/
def add_child (parent child : Node) : Node :=
  .mk parent.payload (parent.children ++ [child])

/-! ### The cursor scanner (`Input`) -/

/-- Modelled from the spec: the cursor scanner of `src/parser/input.rs` is
missing from the reviewed sources; per section 4.1 it holds an immutable
source string and a mutable cursor (a Unicode scalar offset). -/
structure Input where
  s : List Char
  cursor : Nat
deriving DecidableEq, Repr

/-- Modelled from the spec: `peek-equals(char)` — true if the character at
the cursor equals the argument, without consuming. -/
def Input.expect (i : Input) (c : Char) : Bool :=
  i.s.get? i.cursor == some c

/-- Modelled from the spec: `advance()` moves the cursor forward by one
unit. -/
def Input.next (i : Input) : Input :=
  { i with cursor := i.cursor + 1 }

/-- Modelled from the spec: `advance-one-char()` also moves the cursor
forward by one unit (the two advancing forms differ only in pre- versus
post-increment flavour of the same one-unit move). -/
def Input.next_char (i : Input) : Input :=
  { i with cursor := i.cursor + 1 }

/-- First index (into `l`) at which `p` holds, if any. -/
def firstIdx (p : Char → Bool) : List Char → Option Nat
  | [] => none
  | x :: xs => if p x then some 0 else (firstIdx p xs).map Nat.succ

/-- Modelled from the spec: `find(char)` — position of the first occurrence
of the character at or after the cursor; does not move the cursor. -/
def Input.find (i : Input) (c : Char) : Option Nat :=
  (firstIdx (fun x => x == c) (i.s.drop i.cursor)).map (fun k => k + i.cursor)

/-- First index at which `sub` occurs as a contiguous sublist, if any. -/
def firstSubIdx (sub : List Char) : List Char → Option Nat
  | [] => if sub.isEmpty then some 0 else none
  | x :: xs =>
    if sub.isPrefixOf (x :: xs) then some 0
    else (firstSubIdx sub xs).map Nat.succ

/-- Modelled from the spec: `find-string(substring)` — position of the
first literal occurrence of the substring at or after the cursor
(case-sensitive variant; the parser only uses this one). -/
def Input.find_str (i : Input) (sub : List Char) : Option Nat :=
  (firstSubIdx sub (i.s.drop i.cursor)).map (fun k => k + i.cursor)

/-- Modelled from the spec: `expect-string(substring)` — true if the
substring occurs literally at the cursor. -/
def Input.expect_str (i : Input) (sub : List Char) : Bool :=
  sub.isPrefixOf (i.s.drop i.cursor)

/-- Modelled from the spec: `get-cursor()`. -/
def Input.get_cursor (i : Input) : Nat := i.cursor

/-- Modelled from the spec: `set-cursor(pos)`. -/
def Input.set_cursor (i : Input) (p : Nat) : Input :=
  { i with cursor := p }

/-- Modelled from the spec: `slice(begin, end)` — fails with `OutOfBounds`
if `begin > end` or `end` exceeds the input length. -/
def Input.get_string (i : Input) (bgn e : Nat) : Except String (List Char) :=
  if bgn ≤ e ∧ e ≤ i.s.length then .ok ((i.s.drop bgn).take (e - bgn))
  else .error "OutOfBounds"

/-- Modelled from the spec: `is-end()` — cursor at or past the input
length. -/
def Input.is_end (i : Input) : Bool :=
  i.s.length ≤ i.cursor

/-- `Input::new(doc)`. -/
def Input.new (doc : List Char) : Input := ⟨doc, 0⟩

/-! ### The tokenizer (`src/parser/mod.rs`) -/

/-- `str::trim` on the character list: strip leading and trailing
whitespace. -/
def trimChars (s : List Char) : List Char :=
  ((s.dropWhile Char.isWhitespace).reverse.dropWhile Char.isWhitespace).reverse

/-- The scanning loop of `get_tag_end` (`src/parser/mod.rs` lines 176-187):
advance, toggle the double-quote state on `"`, and stop at the first `>`
seen outside double quotes; the sentinel result `0` means the input ended
first.  The loop advances the cursor each iteration, so `fuel`
exhaustion cannot occur for the fuel passed by `get_tag_end`. -/
def getTagEndLoop (fuel : Nat) (i : Input) (in_dq : Bool) : Nat :=
  match fuel with
  | 0 => 0
  | Nat.succ fuel =>
    if i.is_end then 0
    else
      let i' := i.next_char
      let in_dq' := if i'.expect '"' then !in_dq else in_dq
      if !in_dq' && i'.expect '>' then i'.get_cursor
      else getTagEndLoop fuel i' in_dq'

/-- `get_tag_end` (`src/parser/mod.rs` lines 171-194): position of the end
of the current tag.  The cursor is saved and restored in the source; here
the caller simply keeps its own `Input` value. -/
def get_tag_end (input : Input) : Except String Nat :=
  match getTagEndLoop (input.s.length - input.cursor + 1) input false with
  | 0 => .error "Input ends in the middle of the tag."
  | Nat.succ r => .ok (r + 1)

/-- `parse_tag_attr_value` (`src/parser/mod.rs` lines 124-164): the value
of a tag attribute, for delimiter `"`, `'` or ` ` (undelimited). -/
def parse_tag_attr_value (input0 : Input) (tag_end : Nat) (delimiter : Char) :
    Except String (List Char × Input) := do
  let input := if delimiter != ' ' then input0.next else input0
  let value_bgn := input.get_cursor
  let value_end ←
    match input.find delimiter with
    | some cursor =>
      if cursor < tag_end then
        Except.ok cursor
      else if delimiter == ' ' then
        Except.ok tag_end
      else
        Except.error ("There is no delimiter(" ++ delimiter.toString ++
          ") to terminate the attribute.")
    | none =>
      Except.error ("Input ends in the middle of delimiter(" ++
        delimiter.toString ++ ")")
  if value_bgn == value_end then
    Except.ok ([], input)
  else do
    let input := input.set_cursor value_end
    let v ← input.get_string value_bgn value_end
    Except.ok (v, input)

/-- One iteration of the attribute loop of `parse_tag_attr`
(`src/parser/mod.rs` lines 213-283), entered with the cursor not on the
closing `>`: compute the attribute name span, then parse its value when a
`=` occurs before the end of the tag. -/
def parse_attr_slot (input0 : Input) (tag_end : Nat) :
    Except String (List Char × List Char × Input) := do
  let attr_name_bgn := input0.get_cursor
  let e1 :=
    match input0.find '=' with
    | some cursor => if cursor < tag_end then cursor else tag_end
    | none => tag_end
  let attr_name_end :=
    match input0.find ' ' with
    | some cursor => if cursor < e1 then cursor else e1
    | none => e1
  let input := input0.set_cursor attr_name_end
  let attr_name ← input.get_string attr_name_bgn attr_name_end
  if input.get_cursor != tag_end then
    match input.find '=' with
    | some cursor =>
      if cursor < tag_end then do
        let input := (input.set_cursor cursor).next_char
        let (attr_value, input) ←
          if input.expect '"' then parse_tag_attr_value input tag_end '"'
          else if input.expect '\'' then parse_tag_attr_value input tag_end '\''
          else parse_tag_attr_value input tag_end ' '
        Except.ok (attr_name, attr_value, input)
      else
        Except.ok (attr_name, [], input)
    | none => Except.ok (attr_name, [], input)
  else
    Except.ok (attr_name, [], input)

/-- The attribute loop of `parse_tag_attr` (`src/parser/mod.rs` lines
213-293): stop past the closing `>`, otherwise read one attribute slot,
record it, and step to the next slot. -/
def parse_tag_attr_loop (fuel : Nat) (input : Input) (tag_end : Nat)
    (attr_map : AttrMap) : Except String (AttrMap × Input) :=
  match fuel with
  | 0 => .error "Out of fuel."
  | Nat.succ fuel =>
    if input.expect '>' then .ok (attr_map, input.next)
    else do
      let (attr_name, attr_value, input) ← parse_attr_slot input tag_end
      let attr_map := insertAttr attr_map attr_name attr_value
      if input.expect '>' then .ok (attr_map, input.next)
      else parse_tag_attr_loop fuel input.next_char tag_end attr_map

/-- `parse_tag_attr` (`src/parser/mod.rs` lines 205-304): collect the
attributes, then turn a literal `/` attribute into the self-closing flag
and store the map on the tag. -/
def parse_tag_attr (input : Input) (tag : Tag) : Except String (Tag × Input) := do
  let tag_end ← get_tag_end input
  let (attr_map, input) ← parse_tag_attr_loop (input.s.length - input.cursor + 2) input tag_end []
  let tag :=
    if attr_map.any (fun kv => kv.1 == ['/']) then
      { tag with self_closing := true }
    else tag
  let attr_map := removeAttr attr_map ['/']
  let tag := { tag with attrs := some attr_map }
  Except.ok (tag, input)

/-- `parse_tag_name` (`src/parser/mod.rs` lines 314-363): read the
(trimmed) tag name up to the first space or the tag end, then either
finish at `>` or hand over to the attribute parser. -/
def parse_tag_name (input : Input) (terminator : Bool) :
    Except String (Tag × Input) := do
  let name_bgn := input.get_cursor
  let tag_end ← get_tag_end input
  let name_end :=
    match input.find ' ' with
    | some cursor => if cursor < tag_end then cursor else tag_end
    | none => tag_end
  let input := input.set_cursor name_end
  let tag_name ← input.get_string name_bgn name_end
  let tag_name := trimChars tag_name
  let tag : Tag := { Tag.new tag_name with terminator := terminator }
  if input.expect '>' then
    Except.ok (tag, input.next)
  else
    let input := input.next_char
    if input.expect '>' then
      Except.ok (tag, input.next)
    else
      parse_tag_attr input tag

/-- `parse_tag` (`src/parser/mod.rs` lines 372-390): skip the `<`, note a
leading `/` as the end-tag marker, and parse the tag proper. -/
def parse_tag (input : Input) : Except String (Node × Input) := do
  let input := input.next
  let (terminator, input) :=
    if input.expect '/' then (true, input.next) else (false, input)
  let (tag, input) ← parse_tag_name input terminator
  Except.ok (Node.new (Payload.tag tag), input)

/-- `parse_comment` (`src/parser/mod.rs` lines 397-417): the span between
`<!--` and the first following `-->`. -/
def parse_comment (input : Input) : Except String (Node × Input) := do
  let bgn := input.get_cursor + 4
  match input.find_str ("-->".toList) with
  | some cursor => do
    let input := input.set_cursor (cursor + 3)
    let s ← input.get_string bgn cursor
    Except.ok (Node.new (Payload.comment s), input)
  | none => Except.error "Input ends in the middle of the comment."

/-- `parse_text` (`src/parser/mod.rs` lines 423-448): the span from the
cursor to the next `<`; with no `<` ahead the source advances one unit and
slices up to the new cursor. -/
def parse_text (input : Input) : Except String (Node × Input) := do
  let bgn := input.get_cursor
  let (theEnd, input) :=
    match input.find '<' with
    | some cursor => (cursor, input.set_cursor cursor)
    | none =>
      let input := input.next_char
      (input.get_cursor, input)
  let s ← input.get_string bgn theEnd
  Except.ok (Node.new (Payload.text s), input)

/-- `parse_text_script` (`src/parser/mod.rs` lines 451-470): verbatim text
up to (not including) the literal `</script`. -/
def parse_text_script (input : Input) : Except String (Node × Input) := do
  let bgn := input.get_cursor
  match input.find_str ("</script".toList) with
  | some cursor => do
    let input := input.set_cursor cursor
    let s ← input.get_string bgn cursor
    Except.ok (Node.new (Payload.text s), input)
  | none => Except.error "Input ends in the middle of the tag."

/-- The final `else` branch of the `create_node_vec` loop
(`src/parser/mod.rs` lines 561-574): skip one `' '` or `'\n'`, then emit a
text node unless the cursor now rests on `<`. -/
def text_step (input0 : Input) : Except String (Option Node × Input) :=
  let input :=
    if input0.expect ' ' || input0.expect '\n' then input0.next_char else input0
  if !(input.expect '<') then do
    let (node, input) ← parse_text input
    Except.ok (some node, input)
  else
    Except.ok (none, input)

/-- The main loop of `create_node_vec` (`src/parser/mod.rs` lines 527-575):
one tokenizer step per iteration until the end of input; after a
non-terminator `script` tag whose following character is not `<`, the
verbatim script text is captured as well.  Every iteration advances the
cursor, so the fuel passed by `create_node_vec` never runs out. -/
def create_node_vec_loop (fuel : Nat) (input : Input) (acc : List Node) :
    Except String (List Node) :=
  match fuel with
  | 0 => .error "Out of fuel."
  | Nat.succ fuel =>
    if input.is_end then .ok acc
    else if input.expect_str ("<!--".toList) then do
      let (node, input) ← parse_comment input
      create_node_vec_loop fuel input (acc ++ [node])
    else if input.expect '<' then do
      let (node, input) ← parse_tag input
      let is_bgn_script :=
        match node.payload with
        | .tag tag => tag.name == "script".toList && !tag.terminator
        | _ => false
      let acc := acc ++ [node]
      if is_bgn_script && !(input.expect '<') then do
        let (tnode, input) ← parse_text_script input
        create_node_vec_loop fuel input (acc ++ [tnode])
      else
        create_node_vec_loop fuel input acc
    else do
      let (onode, input) ← text_step input
      match onode with
      | some node => create_node_vec_loop fuel input (acc ++ [node])
      | none => create_node_vec_loop fuel input acc

/-- The leading loop of `create_node_vec` (`src/parser/mod.rs` lines
516-518): advance until the cursor rests on the first `<`.  On an input
with no `<` the source loops forever; here the fuel runs out instead. -/
def skip_to_lt (fuel : Nat) (input : Input) : Except String Input :=
  match fuel with
  | 0 => .error "Out of fuel."
  | Nat.succ fuel =>
    if input.expect '<' then .ok input
    else skip_to_lt fuel input.next_char

/-- `create_node_vec` (`src/parser/mod.rs` lines 512-578): move to the
first `<`, then run the tokenizer loop over the whole document. -/
def create_node_vec (fuel : Nat) (input : Input) : Except String (List Node) := do
  let input ← skip_to_lt fuel input
  create_node_vec_loop fuel input []

/-! ### The tree builder (`src/parser/mod.rs` lines 593-634) -/

/-- The per-node test of `find_terminator`: a `Tag` payload that is an end
tag with the starter's name. -/
def is_matching_end (starter : Tag) (n : Node) : Bool :=
  match n.payload with
  | .tag tag => tag.terminator && starter.name == tag.name
  | _ => false

/-- `find_terminator` (`src/parser/mod.rs` lines 593-604): index of the
first end tag in the sequence whose name equals the starter's name. -/
def find_terminator (vec : List Node) (starter : Tag) : Option Nat :=
  match vec with
  | [] => none
  | n :: rest =>
    if is_matching_end starter n then some 0
    else (find_terminator rest starter).map Nat.succ

/-- `create_node_tree` (`src/parser/mod.rs` lines 607-634) on an explicit
bound: consume the sequence from the front into the parent, returning the
unconsumed remainder together with the grown parent.  Each step consumes
at least one element, so `create_node_tree` below always passes enough
fuel. -/
def create_node_tree_bounded (fuel : Nat) (vec : List Node) (parent : Node) :
    List Node × Node :=
  match fuel, vec with
  | 0, vec => (vec, parent)
  | Nat.succ _, [] => ([], parent)
  | Nat.succ fuel, node :: rest =>
    match node.payload with
    | Payload.tag tag =>
      if tag.terminator then (rest, parent)
      else if !tag.self_closing then
        match find_terminator rest tag with
        | some 0 =>
          create_node_tree_bounded fuel rest.tail (add_child parent node)
        | some (Nat.succ _) =>
          let r := create_node_tree_bounded fuel rest node
          create_node_tree_bounded fuel r.1 (add_child parent r.2)
        | none =>
          create_node_tree_bounded fuel rest (add_child parent node)
      else
        create_node_tree_bounded fuel rest (add_child parent node)
    | _ =>
      create_node_tree_bounded fuel rest (add_child parent node)

/-- `create_node_tree`: the bounded loop with the always-sufficient bound
(the length of the sequence). -/
def create_node_tree (vec : List Node) (parent : Node) : List Node × Node :=
  create_node_tree_bounded vec.length vec parent

/-- The synthetic root payload built by `parse`
(`src/parser/mod.rs` lines 106-109). -/
def rootPayload : Payload := Payload.tag (Tag.new ("root".toList))

/-- `parse` (`src/parser/mod.rs` lines 101-113): tokenize the whole
document into the flat node sequence, then build the tree under the
synthetic `"root"` node. -/
def parse (doc : List Char) : Except String Node := do
  let vec ← create_node_vec (doc.length + 10) (Input.new doc)
  let root := Node.new rootPayload
  Except.ok (create_node_tree vec root).2

/-! ### Decidable equality of trees (for evaluating concrete runs) -/

mutual

def Node.decEq : (x y : Node) → Decidable (x = y)
  | .mk p1 c1, .mk p2 c2 =>
    match (inferInstanceAs (DecidableEq Payload)) p1 p2, Node.decEqList c1 c2 with
    | isTrue h1, isTrue h2 => isTrue (by rw [h1, h2])
    | isFalse h1, _ => isFalse (by intro h; cases h; exact h1 rfl)
    | _, isFalse h2 => isFalse (by intro h; cases h; exact h2 rfl)

def Node.decEqList : (x y : List Node) → Decidable (x = y)
  | [], [] => isTrue rfl
  | [], _ :: _ => isFalse (by intro h; cases h)
  | _ :: _, [] => isFalse (by intro h; cases h)
  | x :: xs, y :: ys =>
    match Node.decEq x y, Node.decEqList xs ys with
    | isTrue h1, isTrue h2 => isTrue (by rw [h1, h2])
    | isFalse h1, _ => isFalse (by intro h; cases h; exact h1 rfl)
    | _, isFalse h2 => isFalse (by intro h; cases h; exact h2 rfl)

end

instance : DecidableEq Node := Node.decEq

def exceptDecEq (α : Type) (hd : DecidableEq α) :
    (x y : Except String α) → Decidable (x = y)
  | .ok a, .ok b =>
    match hd a b with
    | isTrue h => isTrue (by rw [h])
    | isFalse h => isFalse (by intro hh; cases hh; exact h rfl)
  | .ok _, .error _ => isFalse (by intro h; cases h)
  | .error _, .ok _ => isFalse (by intro h; cases h)
  | .error e1, .error e2 =>
    match (inferInstanceAs (DecidableEq String)) e1 e2 with
    | isTrue h => isTrue (by rw [h])
    | isFalse h => isFalse (by intro hh; cases hh; exact h rfl)

instance (α : Type) [hd : DecidableEq α] : DecidableEq (Except String α) :=
  exceptDecEq α hd

/-! ### The ownership arena (`src/dom/mod.rs`)

`NodeData` owns its children (`Rc`) and keeps a non-owning, mutable
back-reference to its parent (`RefCell<Weak<NodeData>>`, absent until an
attach).  Following the specification's own modelling note (section 9),
this shared-ownership graph is embedded as an arena of nodes indexed by
stable integers: a slot stores the payload, the parent index (or `none`),
and the ordered child indices. -/

/-- One `NodeData` slot: payload, non-owning parent reference, owned
ordered children. -/
structure ANode where
  payload : Payload
  parent : Option Nat
  children : List Nat
deriving DecidableEq, Repr

/-- The arena of allocated `NodeData` values; an index plays the role of
an `Rc<NodeData>` handle. -/
abbrev Arena := List ANode

/-- `Node::new(payload)` as an arena slot: fresh node, no parent, no
children. -/
def ANode.new (payload : Payload) : ANode :=
  { payload := payload, parent := none, children := [] }

/-- `Node::add_child_and_update_parent` (`src/dom/mod.rs` lines 136-146):
append the child handle to the parent's child sequence, then point the
child's parent back-reference at the parent. -/
def addChildA (a : Arena) (p c : Nat) : Arena :=
  let a1 :=
    match a.get? p with
    | some nd => a.set p { nd with children := nd.children ++ [c] }
    | none => a
  match a1.get? c with
  | some nd => a1.set c { nd with parent := some p }
  | none => a1

/-- `find_terminator` over arena handles. -/
def find_terminatorA (a : Arena) (vec : List Nat) (starter : Tag) : Option Nat :=
  match vec with
  | [] => none
  | i :: rest =>
    match (a.get? i).map ANode.payload with
    | some (Payload.tag tag) =>
      if tag.terminator && starter.name == tag.name then some 0
      else (find_terminatorA a rest starter).map Nat.succ
    | _ => (find_terminatorA a rest starter).map Nat.succ

/-- `create_node_tree` over arena handles, mirroring
`create_node_tree_bounded` step for step; attaching runs through
`addChildA`, so parent back-references are recorded. -/
def create_node_treeA (fuel : Nat) (a : Arena) (vec : List Nat) (parent : Nat) :
    Arena × List Nat :=
  match fuel with
  | 0 => (a, vec)
  | Nat.succ fuel =>
    match vec with
    | [] => (a, [])
    | i :: rest =>
      match (a.get? i).map ANode.payload with
      | some (Payload.tag tag) =>
        if tag.terminator then (a, rest)
        else if !tag.self_closing then
          match find_terminatorA a rest tag with
          | some 0 =>
            create_node_treeA fuel (addChildA a parent i) rest.tail parent
          | some (Nat.succ _) =>
            let r := create_node_treeA fuel a rest i
            create_node_treeA fuel (addChildA r.1 parent i) r.2 parent
          | none =>
            create_node_treeA fuel (addChildA a parent i) rest parent
        else
          create_node_treeA fuel (addChildA a parent i) rest parent
      | _ =>
        create_node_treeA fuel (addChildA a parent i) rest parent

/-- `parse`, observed at the arena level: the tokenizer allocates one
parentless, childless slot per flat node (in document order), `parse`
allocates the synthetic root slot, and the tree builder wires children
and parent back-references. -/
def parseA (doc : List Char) : Except String (Arena × Nat) := do
  let vec ← create_node_vec (doc.length + 10) (Input.new doc)
  let a : Arena :=
    vec.map (fun n => ANode.new n.payload) ++ [ANode.new rootPayload]
  let rootIdx := vec.length
  let r := create_node_treeA vec.length a (List.range vec.length) rootIdx
  Except.ok (r.1, rootIdx)

/-- `NodeData::eq` observed at the arena level, on an explicit recursion
bound: compare the payloads and, recursively, the child sequences
elementwise; the parent field takes no part. -/
def ndEqA (fuel : Nat) (a : Arena) (i : Nat) (b : Arena) (j : Nat) : Bool :=
  match fuel with
  | 0 => false
  | Nat.succ fuel =>
    match a.get? i with
    | none => false
    | some n =>
      match b.get? j with
      | none => false
      | some m =>
        n.payload == m.payload &&
        n.children.length == m.children.length &&
        (n.children.zip m.children).all (fun pr => ndEqA fuel a pr.1 b pr.2)

/-- Erase every parent back-reference of the arena, leaving payloads and
child sequences untouched. -/
def stripParents (a : Arena) : Arena :=
  a.map (fun nd => { nd with parent := none })

/-- A node that is an end tag bearing the name of the starter tag `t`. -/
def MatchesEnd (t : Tag) (n : Node) : Prop :=
  ∃ tag, n.payload = Payload.tag tag ∧ tag.terminator = true ∧ t.name = tag.name

/-- What `NodeData::eq` reads of an arena slot: the payload and the child
sequence, never the parent back-reference. -/
def pcView (a : Arena) (k : Nat) : Option (Payload × List Nat) :=
  (a.get? k).map (fun nd => (nd.payload, nd.children))

/-- The position of the next occurrence of `c` at or after the cursor,
capped at the end of the tag — the "next `c` or tag-end" reading of the
claim. -/
def nextStop (i : Input) (c : Char) (te : Nat) : Nat :=
  match i.find c with
  | some p => if p < te then p else te
  | none => te

/-- The claim's reading of the tag-end rule, scanning positions from `pos`
onward: the first `>` not inside a double-quoted span, where `"` toggles
the quote state. -/
def claimTagEndAux : List Char → Nat → Bool → Option Nat
  | [], _, _ => none
  | x :: rest, pos, dq =>
    if (x == '>') && !dq then some pos
    else claimTagEndAux rest (pos + 1) (if x == '"' then !dq else dq)

/-- The first unquoted `>` at or after position `c` of `s`, the quote
state starting fresh at `c`. -/
def claimTagEnd (s : List Char) (c : Nat) : Option Nat :=
  claimTagEndAux (s.drop c) c false

/-- The scanner state for `rest` at cursor `c`, viewed inside
`pre ++ rest` at cursor `pre.length + c`. -/
def shiftInput (pre : List Char) (i : Input) : Input :=
  ⟨pre ++ i.s, pre.length + i.cursor⟩

/-- Shift the `Input` component of a tokenizer result. -/
def shiftP (pre : List Char) {α : Type} :
    Except String (α × Input) → Except String (α × Input)
  | .ok (x, i) => .ok (x, shiftInput pre i)
  | .error e => .error e

/-- Shift the `Input` component of an attribute-slot result. -/
def shiftP2 (pre : List Char) {α β : Type} :
    Except String (α × β × Input) → Except String (α × β × Input)
  | .ok (x, y, i) => .ok (x, y, shiftInput pre i)
  | .error e => .error e

/-! ### Tree-builder lemmas -/

theorem create_node_tree_bounded_length (fuel : Nat) :
    ∀ (vec : List Node) (parent : Node),
      (create_node_tree_bounded fuel vec parent).1.length ≤ vec.length := by
  induction fuel with
  | zero =>
    intro vec parent
    simp [create_node_tree_bounded]
  | succ fuel ih =>
    intro vec parent
    cases vec with
    | nil => simp [create_node_tree_bounded]
    | cons node rest =>
      have htail : rest.tail.length ≤ rest.length := by
        cases rest <;> simp
      simp only [create_node_tree_bounded, List.length_cons]
      split
      · split
        case isTrue => simp
        case isFalse =>
          split
          case isTrue =>
            split
            · have h1 := ih rest.tail (add_child parent node)
              omega
            · have h1 := ih rest node
              have h2 := ih (create_node_tree_bounded fuel rest node).1
                (add_child parent (create_node_tree_bounded fuel rest node).2)
              omega
            · have h1 := ih rest (add_child parent node)
              omega
          case isFalse =>
            have h1 := ih rest (add_child parent node)
            omega
      · have h1 := ih rest (add_child parent node)
        omega

theorem create_node_tree_bounded_congr :
    ∀ (n f1 f2 : Nat) (vec : List Node) (parent : Node),
      vec.length ≤ n → vec.length ≤ f1 → vec.length ≤ f2 →
      create_node_tree_bounded f1 vec parent = create_node_tree_bounded f2 vec parent := by
  intro n
  induction n using Nat.strong_induction_on with
  | _ n ih =>
    intro f1 f2 vec parent hn h1 h2
    cases vec with
    | nil =>
      cases f1 <;> cases f2 <;> simp [create_node_tree_bounded]
    | cons node rest =>
      simp only [List.length_cons] at hn h1 h2
      obtain ⟨g1, rfl⟩ : ∃ g, f1 = g + 1 := ⟨f1 - 1, by omega⟩
      obtain ⟨g2, rfl⟩ : ∃ g, f2 = g + 1 := ⟨f2 - 1, by omega⟩
      have hrn : rest.length < n := by omega
      have htail : rest.tail.length ≤ rest.length := by
        cases rest <;> simp
      simp only [create_node_tree_bounded]
      split
      · split
        case isTrue => rfl
        case isFalse =>
          split
          case isTrue =>
            split
            · exact ih rest.length hrn g1 g2 rest.tail _ htail (by omega) (by omega)
            · have hr : create_node_tree_bounded g1 rest node =
                  create_node_tree_bounded g2 rest node :=
                ih rest.length hrn g1 g2 rest node (Nat.le_refl _) (by omega) (by omega)
              rw [hr]
              have hlen := create_node_tree_bounded_length g2 rest node
              exact ih rest.length hrn g1 g2 _ _ hlen (by omega) (by omega)
            · exact ih rest.length hrn g1 g2 rest _ (Nat.le_refl _) (by omega) (by omega)
          case isFalse =>
            exact ih rest.length hrn g1 g2 rest _ (Nat.le_refl _) (by omega) (by omega)
      · exact ih rest.length hrn g1 g2 rest _ (Nat.le_refl _) (by omega) (by omega)

/-- Unfolding equation of the tree builder: a leading end tag returns
control to the caller at once, unconsumed remainder `rest`, the parent
untouched. -/
theorem create_node_tree_terminator (t : Tag) (c : List Node) (rest : List Node)
    (parent : Node) (ht : t.terminator = true) :
    create_node_tree (Node.mk (Payload.tag t) c :: rest) parent = (rest, parent) := by
  simp [create_node_tree, create_node_tree_bounded, Node.payload, ht]

/-- Unfolding equation of the tree builder: a non-self-closing start tag
whose matching end tag is the immediately next node consumes that end tag
and is attached with no children. -/
theorem create_node_tree_immediate (t : Tag) (rest : List Node) (parent : Node)
    (ht : t.terminator = false) (hs : t.self_closing = false)
    (hf : find_terminator rest t = some 0) :
    create_node_tree (Node.mk (Payload.tag t) [] :: rest) parent =
      create_node_tree rest.tail (add_child parent (Node.mk (Payload.tag t) [])) := by
  have htail : rest.tail.length ≤ rest.length := by cases rest <;> simp
  simp only [create_node_tree, create_node_tree_bounded, Node.payload, ht, hs, hf,
    List.length_cons, Bool.not_false, if_true]
  exact create_node_tree_bounded_congr rest.length rest.length rest.tail.length
    rest.tail _ htail htail (Nat.le_refl _)

/-- Unfolding equation of the tree builder: a non-self-closing start tag
whose matching end tag occurs later (index `k + 1`) makes the builder
recurse with the start tag as the parent, then attach the grown start tag
and continue on what that recursion left over. -/
theorem create_node_tree_recurse (t : Tag) (rest : List Node) (parent : Node)
    (k : Nat) (ht : t.terminator = false) (hs : t.self_closing = false)
    (hf : find_terminator rest t = some (k + 1)) :
    create_node_tree (Node.mk (Payload.tag t) [] :: rest) parent =
      (let r := create_node_tree rest (Node.mk (Payload.tag t) []);
       create_node_tree r.1 (add_child parent r.2)) := by
  have hlen := create_node_tree_bounded_length rest.length rest
    (Node.mk (Payload.tag t) [])
  simp only [create_node_tree, create_node_tree_bounded, Node.payload, ht, hs, hf,
    List.length_cons, Bool.not_false, if_true]
  exact create_node_tree_bounded_congr rest.length rest.length _ _ _ hlen hlen
    (Nat.le_refl _)

/-- Unfolding equation of the tree builder: a non-self-closing start tag
with no matching end tag anywhere ahead is attached with no children and
processing continues on the remainder. -/
theorem create_node_tree_unmatched (t : Tag) (rest : List Node) (parent : Node)
    (ht : t.terminator = false) (hs : t.self_closing = false)
    (hf : find_terminator rest t = none) :
    create_node_tree (Node.mk (Payload.tag t) [] :: rest) parent =
      create_node_tree rest (add_child parent (Node.mk (Payload.tag t) [])) := by
  simp [create_node_tree, create_node_tree_bounded, Node.payload, ht, hs, hf]

/-- The tree builder never changes the payload of the node it fills. -/
theorem create_node_tree_bounded_payload (fuel : Nat) :
    ∀ (vec : List Node) (parent : Node),
      (create_node_tree_bounded fuel vec parent).2.payload = parent.payload := by
  induction fuel with
  | zero => intro vec parent; simp [create_node_tree_bounded]
  | succ fuel ih =>
    intro vec parent
    cases vec with
    | nil => simp [create_node_tree_bounded]
    | cons node rest =>
      simp only [create_node_tree_bounded]
      split
      · split
        case isTrue => rfl
        case isFalse =>
          split
          case isTrue =>
            split
            · rw [ih]; rfl
            · rw [ih]; rfl
            · rw [ih]; rfl
          case isFalse => rw [ih]; rfl
      · rw [ih]; rfl

/-- The per-node test of the end-tag search, in terms of the data: an end
tag whose name equals the starter's name. -/
theorem is_matching_end_iff (t : Tag) (n : Node) :
    is_matching_end t n = true ↔
      ∃ tag, n.payload = Payload.tag tag ∧ tag.terminator = true ∧
        t.name = tag.name := by
  cases n with
  | mk p c =>
    cases p with
    | tag tag =>
      simp only [is_matching_end, Node.payload, Bool.and_eq_true, beq_iff_eq]
      constructor
      · rintro ⟨h1, h2⟩
        exact ⟨tag, rfl, h1, h2⟩
      · rintro ⟨tag', heq, h1, h2⟩
        cases heq
        exact ⟨h1, h2⟩
    | text s => simp [is_matching_end, Node.payload]
    | comment s => simp [is_matching_end, Node.payload]

/-- `find_terminator` finds exactly the first position holding an end tag
with the starter's name: the found node matches, every earlier node does
not. -/
theorem find_terminator_spec (t : Tag) :
    ∀ (vec : List Node) (i : Nat),
      find_terminator vec t = some i ↔
        ((∃ n, vec.get? i = some n ∧ is_matching_end t n = true) ∧
          ∀ j, j < i → ∀ m, vec.get? j = some m → is_matching_end t m = false) := by
  intro vec
  induction vec with
  | nil =>
    intro i
    simp [find_terminator]
  | cons n rest ih =>
    intro i
    by_cases hm : is_matching_end t n = true
    · simp only [find_terminator, hm, if_true]
      constructor
      · intro h
        have hi : i = 0 := by cases h; rfl
        subst hi
        exact ⟨⟨n, by simp, hm⟩, by intro j hj; omega⟩
      · rintro ⟨⟨m, hget, hmm⟩, hfirst⟩
        cases i with
        | zero => rfl
        | succ i' =>
          exfalso
          have hz := hfirst 0 (Nat.succ_pos _) n (by simp)
          rw [hz] at hm
          exact Bool.noConfusion hm
    · rw [Bool.not_eq_true] at hm
      simp only [find_terminator, hm, Bool.false_eq_true, if_false]
      cases i with
      | zero =>
        constructor
        · intro h
          exfalso
          rcases Option.map_eq_some'.mp h with ⟨a, _, ha⟩
          exact Nat.succ_ne_zero a ha
        · rintro ⟨⟨m, hget, hmm⟩, _⟩
          exfalso
          simp only [List.get?_cons_zero, Option.some.injEq] at hget
          rw [hget] at hm
          rw [hm] at hmm
          exact Bool.noConfusion hmm
      | succ i' =>
        constructor
        · intro h
          rcases Option.map_eq_some'.mp h with ⟨a, ha, hsucc⟩
          have hai : a = i' := by omega
          rw [hai] at ha
          rcases (ih i').mp ha with ⟨⟨m, hget, hmm⟩, hfirst⟩
          refine ⟨⟨m, by simpa using hget, hmm⟩, ?_⟩
          intro j hj mm hgetj
          cases j with
          | zero =>
            simp only [List.get?_cons_zero, Option.some.injEq] at hgetj
            rw [hgetj] at hm
            exact hm
          | succ j' =>
            exact hfirst j' (by omega) mm (by simpa using hgetj)
        · rintro ⟨⟨m, hget, hmm⟩, hfirst⟩
          have hrest : find_terminator rest t = some i' := by
            refine (ih i').mpr ⟨⟨m, by simpa using hget, hmm⟩, ?_⟩
            intro j hj mm hgetj
            exact hfirst (j + 1) (by omega) mm (by simpa using hgetj)
          rw [hrest]
          rfl

/-- `find_terminator` fails exactly when no end tag in the sequence bears
the starter's name. -/
theorem find_terminator_none (t : Tag) :
    ∀ (vec : List Node),
      find_terminator vec t = none ↔
        ∀ n ∈ vec, is_matching_end t n = false := by
  intro vec
  induction vec with
  | nil => simp [find_terminator]
  | cons n rest ih =>
    by_cases hm : is_matching_end t n = true
    · simp only [find_terminator, hm, if_true]
      constructor
      · intro h; exact Option.noConfusion h
      · intro h
        have := h n (by simp)
        rw [this] at hm
        exact Bool.noConfusion hm
    · rw [Bool.not_eq_true] at hm
      simp only [find_terminator, hm, Bool.false_eq_true, if_false,
        Option.map_eq_none', ih]
      constructor
      · intro h m hmem
        rcases List.mem_cons.mp hmem with h1 | h2
        · rw [h1]; exact hm
        · exact h m h2
      · intro h m hmem
        exact h m (List.mem_cons_of_mem _ hmem)

theorem matchesEnd_iff (t : Tag) (n : Node) :
    is_matching_end t n = true ↔ MatchesEnd t n :=
  is_matching_end_iff t n

theorem not_matchesEnd_iff (t : Tag) (n : Node) :
    is_matching_end t n = false ↔ ¬ MatchesEnd t n := by
  rw [← matchesEnd_iff]
  exact Bool.eq_false_iff

/-- `parse` returns a tree, never an error, whenever the tokenizer
succeeded: tree construction has no failure path. -/
theorem parse_of_create_node_vec (doc : List Char) (vec : List Node)
    (h : create_node_vec (doc.length + 10) (Input.new doc) = Except.ok vec) :
    parse doc = Except.ok (create_node_tree vec (Node.new rootPayload)).2 := by
  simp only [parse, h]
  rfl

/-! ### C1 -/

/-- Claim C1 is false as stated: when the matching end tag occurs later,
the builder's recursion does not in general consume nodes up to and
including that end tag.  In the flat sequence
`<a> <b> </c> </a> <d>` the first end tag named `a` sits at index 2 of the
remainder (so the claim prescribes consuming `<b> </c> </a>` into the
`<a>` subtree and then processing `<d>`), yet the builder stops the
`<a>`-level recursion at the unrelated `</c>`, lets `</a>` terminate the
outer level, and `<d>` is left unconsumed and dropped — as the parse of
`<a><b></c></a><d>` also shows. -/
theorem C1_counterexample :
    create_node_tree
        [Node.new (Payload.tag (Tag.new ['a'])),
         Node.new (Payload.tag (Tag.new ['b'])),
         Node.new (Payload.tag { Tag.new ['c'] with terminator := true }),
         Node.new (Payload.tag { Tag.new ['a'] with terminator := true }),
         Node.new (Payload.text ['d'])]
        (Node.new rootPayload) =
      ([Node.new (Payload.text ['d'])],
       Node.mk rootPayload
         [Node.mk (Payload.tag (Tag.new ['a']))
           [Node.new (Payload.tag (Tag.new ['b']))]]) ∧
    find_terminator
        [Node.new (Payload.tag (Tag.new ['b'])),
         Node.new (Payload.tag { Tag.new ['c'] with terminator := true }),
         Node.new (Payload.tag { Tag.new ['a'] with terminator := true }),
         Node.new (Payload.text ['d'])] (Tag.new ['a']) = some 2 ∧
    parse ("<a><b></c></a><d>".toList) =
      Except.ok (Node.mk rootPayload
        [Node.mk (Payload.tag (Tag.new ['a']))
          [Node.new (Payload.tag (Tag.new ['b']))]]) := by
  refine ⟨by decide, by decide, by decide⟩

/-- Claim C1, amended.  For every flat node sequence headed by a
non-self-closing start tag: the candidate matching end tag is the first
end tag of the remainder whose name equals the start tag's name,
regardless of intervening unrelated tags; if it is the immediately next
node it is removed and the start tag is attached with no children; if it
occurs later the builder recurses with the start tag as parent and then
continues on whatever that recursion left unconsumed (the recursion stops
at the first end tag reached at its own level, which need not be the
matching one); if no same-named end tag exists the start tag is attached
with no children and processing continues without error. -/
theorem C1_amended :
    (∀ (rest : List Node) (t : Tag) (i : Nat),
        find_terminator rest t = some i ↔
          ((∃ n, rest.get? i = some n ∧ MatchesEnd t n) ∧
            ∀ j, j < i → ∀ m, rest.get? j = some m → ¬ MatchesEnd t m)) ∧
    (∀ (t : Tag) (rest : List Node) (parent : Node),
        t.terminator = false → t.self_closing = false →
        find_terminator rest t = some 0 →
        create_node_tree (Node.mk (Payload.tag t) [] :: rest) parent =
          create_node_tree rest.tail
            (add_child parent (Node.mk (Payload.tag t) []))) ∧
    (∀ (t : Tag) (rest : List Node) (parent : Node) (k : Nat),
        t.terminator = false → t.self_closing = false →
        find_terminator rest t = some (k + 1) →
        create_node_tree (Node.mk (Payload.tag t) [] :: rest) parent =
          (let r := create_node_tree rest (Node.mk (Payload.tag t) []);
           create_node_tree r.1 (add_child parent r.2))) ∧
    (∀ (t : Tag) (rest : List Node) (parent : Node),
        t.terminator = false → t.self_closing = false →
        find_terminator rest t = none →
        create_node_tree (Node.mk (Payload.tag t) [] :: rest) parent =
          create_node_tree rest
            (add_child parent (Node.mk (Payload.tag t) []))) := by
  refine ⟨?_, create_node_tree_immediate, create_node_tree_recurse,
    create_node_tree_unmatched⟩
  intro rest t i
  rw [find_terminator_spec]
  constructor
  · rintro ⟨⟨n, hget, hmm⟩, hfirst⟩
    refine ⟨⟨n, hget, (matchesEnd_iff t n).mp hmm⟩, ?_⟩
    intro j hj m hgetm
    exact (not_matchesEnd_iff t m).mp (hfirst j hj m hgetm)
  · rintro ⟨⟨n, hget, hmm⟩, hfirst⟩
    refine ⟨⟨n, hget, (matchesEnd_iff t n).mpr hmm⟩, ?_⟩
    intro j hj m hgetm
    exact (not_matchesEnd_iff t m).mpr (hfirst j hj m hgetm)

/-- Witness for C1: the amended equations applied at concrete inputs —
the empty-element shorthand `<a></a>`, the recursion case `<a><b></b></a>`
(matching end at index 2 of the remainder), and an unmatched `<a>`. -/
theorem C1_amended_witness :
    (create_node_tree
        [Node.new (Payload.tag (Tag.new ['a'])),
         Node.new (Payload.tag { Tag.new ['a'] with terminator := true })]
        (Node.new rootPayload) =
      create_node_tree [] (add_child (Node.new rootPayload)
        (Node.new (Payload.tag (Tag.new ['a']))))) ∧
    (create_node_tree
        [Node.new (Payload.tag (Tag.new ['a'])),
         Node.new (Payload.tag (Tag.new ['b'])),
         Node.new (Payload.tag { Tag.new ['b'] with terminator := true }),
         Node.new (Payload.tag { Tag.new ['a'] with terminator := true })]
        (Node.new rootPayload) =
      (let r := create_node_tree
          [Node.new (Payload.tag (Tag.new ['b'])),
           Node.new (Payload.tag { Tag.new ['b'] with terminator := true }),
           Node.new (Payload.tag { Tag.new ['a'] with terminator := true })]
          (Node.new (Payload.tag (Tag.new ['a'])));
       create_node_tree r.1 (add_child (Node.new rootPayload) r.2))) ∧
    (create_node_tree
        [Node.new (Payload.tag (Tag.new ['a'])),
         Node.new (Payload.text ['x'])] (Node.new rootPayload) =
      create_node_tree [Node.new (Payload.text ['x'])]
        (add_child (Node.new rootPayload)
          (Node.new (Payload.tag (Tag.new ['a']))))) ∧
    find_terminator
        [Node.new (Payload.tag { Tag.new ['a'] with terminator := true })]
        (Tag.new ['a']) = some 0 := by
  refine ⟨?_, ?_, ?_, ?_⟩
  · exact C1_amended.2.1 (Tag.new ['a']) _ _ (by decide) (by decide) (by decide)
  · exact C1_amended.2.2.1 (Tag.new ['a']) _ _ 1 (by decide) (by decide) (by decide)
  · exact C1_amended.2.2.2 (Tag.new ['a']) _ _ (by decide) (by decide) (by decide)
  · exact ((C1_amended.1 _ _ _).mpr
      ⟨⟨Node.new (Payload.tag { Tag.new ['a'] with terminator := true }),
        by decide, ⟨{ Tag.new ['a'] with terminator := true }, rfl, rfl, rfl⟩⟩,
       by intro j hj; omega⟩)

/-! ### C2 -/

/-- Claim C2: a flat sequence beginning with an end tag makes the
outermost tree-builder call return at once with the root untouched (the
end tag is dropped, nothing is attached); tree construction has no error
path, so whenever the tokenizer succeeds `parse` succeeds; concretely,
`</a><b></b>` parses with no error to a bare root. -/
theorem C2_theorem :
    (∀ (t : Tag) (c : List Node) (rest : List Node) (parent : Node),
        t.terminator = true →
        create_node_tree (Node.mk (Payload.tag t) c :: rest) parent =
          (rest, parent)) ∧
    (∀ (doc : List Char) (vec : List Node),
        create_node_vec (doc.length + 10) (Input.new doc) = Except.ok vec →
        parse doc =
          Except.ok (create_node_tree vec (Node.new rootPayload)).2) ∧
    (∀ (doc : List Char) (t : Tag) (c : List Node) (rest : List Node),
        create_node_vec (doc.length + 10) (Input.new doc) =
          Except.ok (Node.mk (Payload.tag t) c :: rest) →
        t.terminator = true →
        parse doc = Except.ok (Node.new rootPayload)) ∧
    parse ("</a><b></b>".toList) = Except.ok (Node.new rootPayload) := by
  refine ⟨create_node_tree_terminator, parse_of_create_node_vec, ?_, by decide⟩
  intro doc t c rest hvec ht
  rw [parse_of_create_node_vec doc _ hvec,
    create_node_tree_terminator t c rest _ ht]

/-- Witness for C2: the dropped leading end tag and the no-error outcome,
at the concrete document `</a>`. -/
theorem C2_witness :
    (create_node_tree
        [Node.mk (Payload.tag { Tag.new ['a'] with terminator := true }) [],
         Node.new (Payload.text ['x'])] (Node.new rootPayload) =
      ([Node.new (Payload.text ['x'])], Node.new rootPayload)) ∧
    parse ("</a>".toList) = Except.ok (Node.new rootPayload) := by
  refine ⟨C2_theorem.1 _ _ _ _ (by decide), ?_⟩
  exact C2_theorem.2.2.1 ("</a>".toList)
    { Tag.new ['a'] with terminator := true } [] [] (by decide) (by decide)

/-! ### Structural equality lemmas -/

mutual

theorem nodeEq_eq : ∀ (n m : Node), nodeEq n m = true ↔ n = m
  | .mk p c, .mk q d => by
    simp only [nodeEq, Bool.and_eq_true, beq_iff_eq, Node.mk.injEq]
    constructor
    · rintro ⟨h1, h2⟩
      exact ⟨h1, (nodeEqList_eq c d).mp h2⟩
    · rintro ⟨h1, h2⟩
      exact ⟨h1, (nodeEqList_eq c d).mpr h2⟩

theorem nodeEqList_eq : ∀ (l1 l2 : List Node), nodeEqList l1 l2 = true ↔ l1 = l2
  | [], [] => by simp [nodeEqList]
  | [], _ :: _ => by simp [nodeEqList]
  | _ :: _, [] => by simp [nodeEqList]
  | x :: xs, y :: ys => by
    simp only [nodeEqList, Bool.and_eq_true, List.cons.injEq]
    constructor
    · rintro ⟨h1, h2⟩
      exact ⟨(nodeEq_eq x y).mp h1, (nodeEqList_eq xs ys).mp h2⟩
    · rintro ⟨h1, h2⟩
      exact ⟨(nodeEq_eq x y).mpr h1, (nodeEqList_eq xs ys).mpr h2⟩

end

theorem nodeEq_refl (n : Node) : nodeEq n n = true :=
  (nodeEq_eq n n).mpr rfl

theorem pcView_stripParents : ∀ (a : Arena) (k : Nat),
    pcView (stripParents a) k = pcView a k := by
  intro a
  induction a with
  | nil => intro k; rfl
  | cons nd rest ih =>
    intro k
    cases k with
    | zero => rfl
    | succ k => exact ih k

/-- The arena-level equality consults only payloads and child sequences:
arenas agreeing on those (parents arbitrary) compare identically. -/
theorem ndEqA_pc_congr :
    ∀ (fuel : Nat) (a a' b b' : Arena) (i j : Nat),
      (∀ k, pcView a k = pcView a' k) → (∀ k, pcView b k = pcView b' k) →
      ndEqA fuel a i b j = ndEqA fuel a' i b' j := by
  intro fuel
  induction fuel with
  | zero => intros; rfl
  | succ fuel ih =>
    intro a a' b b' i j ha hb
    have hai := ha i
    have hbj := hb j
    simp only [pcView] at hai hbj
    cases h1 : a.get? i with
    | none =>
      rw [h1] at hai
      have h1' : a'.get? i = none := by
        cases h : a'.get? i
        · rfl
        · rw [h] at hai; exact Option.noConfusion hai
      simp only [ndEqA, h1, h1']
    | some n =>
      rw [h1] at hai
      cases h1' : a'.get? i with
      | none => rw [h1'] at hai; exact Option.noConfusion hai
      | some n' =>
        rw [h1'] at hai
        simp only [Option.map_some', Option.some.injEq, Prod.mk.injEq] at hai
        cases h2 : b.get? j with
        | none =>
          rw [h2] at hbj
          have h2' : b'.get? j = none := by
            cases h : b'.get? j
            · rfl
            · rw [h] at hbj; exact Option.noConfusion hbj
          simp only [ndEqA, h1, h1', h2, h2']
        | some m =>
          rw [h2] at hbj
          cases h2' : b'.get? j with
          | none => rw [h2'] at hbj; exact Option.noConfusion hbj
          | some m' =>
            rw [h2'] at hbj
            simp only [Option.map_some', Option.some.injEq, Prod.mk.injEq] at hbj
            have hall : ∀ (l : List (Nat × Nat)),
                (l.all fun pr => ndEqA fuel a pr.1 b pr.2) =
                  (l.all fun pr => ndEqA fuel a' pr.1 b' pr.2) := by
              intro l
              induction l with
              | nil => rfl
              | cons pr rest ihl =>
                simp only [List.all_cons, ihl, ih a a' b b' pr.1 pr.2 ha hb]
            simp only [ndEqA, h1, h1', h2, h2', hai.1, hai.2, hbj.1, hbj.2, hall]

/-! ### Arena parent-link lemmas -/

theorem except_bind_ok {α β : Type} (x : α) (f : α → Except String β) :
    (Except.ok x >>= f) = f x := rfl

theorem get_map_parent_set (a : Arena) (k j : Nat) (nd nd' : ANode)
    (hnd : a.get? k = some nd) (hpar : nd'.parent = nd.parent) :
    ((a.set k nd').get? j).map ANode.parent = (a.get? j).map ANode.parent := by
  by_cases h : j = k
  · subst h
    have hlen : j < a.length := by
      rcases List.get?_eq_some.mp hnd with ⟨hl, _⟩
      exact hl
    rw [List.get?_set_eq_of_lt nd' hlen, hnd]
    simp [hpar]
  · rw [List.get?_set_ne nd' a (fun hh => h hh.symm)]

/-- Attaching a child to a parent changes the parent back-reference of the
child slot only. -/
theorem addChildA_parent_aux (a b : Arena) (p c j : Nat) (hj : j ≠ c)
    (hb : (b.get? j).map ANode.parent = (a.get? j).map ANode.parent) :
    ((match b.get? c with
      | some nd => b.set c { nd with parent := some p }
      | none => b).get? j).map ANode.parent =
      (a.get? j).map ANode.parent := by
  cases h2 : b.get? c with
  | none => exact hb
  | some nd =>
    rw [List.get?_set_ne _ _ (fun hh => hj hh.symm)]
    exact hb

/-- Attaching a child to a parent changes the parent back-reference of the
child slot only. -/
theorem addChildA_parent (a : Arena) (p c j : Nat) (hj : j ≠ c) :
    ((addChildA a p c).get? j).map ANode.parent =
      (a.get? j).map ANode.parent := by
  simp only [addChildA]
  cases h1 : a.get? p with
  | none => exact addChildA_parent_aux a a p c j hj rfl
  | some ndp =>
    exact addChildA_parent_aux a _ p c j hj
      (get_map_parent_set a p j ndp _ h1 rfl)

/-- The tree builder only ever hands back a sub-sequence of the handles it
was given. -/
theorem create_node_treeA_sublist :
    ∀ (fuel : Nat) (a : Arena) (vec : List Nat) (parent : Nat),
      List.Sublist (create_node_treeA fuel a vec parent).2 vec := by
  intro fuel
  induction fuel with
  | zero => intro a vec parent; exact List.Sublist.refl _
  | succ fuel ih =>
    intro a vec parent
    cases vec with
    | nil => exact List.nil_sublist _
    | cons i rest =>
      have htail : List.Sublist rest.tail rest := List.tail_sublist rest
      have hcons : List.Sublist rest (i :: rest) := List.sublist_cons_self i rest
      simp only [create_node_treeA]
      split
      · split
        case isTrue => exact hcons
        case isFalse =>
          split
          case isTrue =>
            split
            · exact ((ih _ rest.tail _).trans htail).trans hcons
            · exact ((ih _ (create_node_treeA fuel a rest i).2 _).trans
                (ih a rest i)).trans hcons
            · exact (ih _ rest _).trans hcons
          case isFalse => exact (ih _ rest _).trans hcons
      · exact (ih _ rest _).trans hcons

/-- A handle that is not in the sequence keeps its parent back-reference
through the whole build: attaches touch members of the sequence only. -/
theorem create_node_treeA_parent :
    ∀ (fuel : Nat) (a : Arena) (vec : List Nat) (parent j : Nat),
      j ∉ vec →
      ((create_node_treeA fuel a vec parent).1.get? j).map ANode.parent =
        (a.get? j).map ANode.parent := by
  intro fuel
  induction fuel with
  | zero => intro a vec parent j _; rfl
  | succ fuel ih =>
    intro a vec parent j hj
    cases vec with
    | nil => rfl
    | cons i rest =>
      have hji : j ≠ i := fun h => hj (h ▸ List.mem_cons_self i rest)
      have hjrest : j ∉ rest := fun h => hj (List.mem_cons_of_mem i h)
      have hjtail : j ∉ rest.tail :=
        fun h => hjrest ((List.tail_sublist rest).mem h)
      simp only [create_node_treeA]
      split
      · split
        case isTrue => rfl
        case isFalse =>
          split
          case isTrue =>
            split
            · rw [ih _ rest.tail _ j hjtail, addChildA_parent a parent i j hji]
            · have hr2 : j ∉ (create_node_treeA fuel a rest i).2 :=
                fun h => hjrest ((create_node_treeA_sublist fuel a rest i).mem h)
              rw [ih _ _ _ j hr2,
                addChildA_parent (create_node_treeA fuel a rest i).1 parent i j hji,
                ih a rest i j hjrest]
            · rw [ih _ rest _ j hjrest, addChildA_parent a parent i j hji]
          case isFalse =>
            rw [ih _ rest _ j hjrest, addChildA_parent a parent i j hji]
      · rw [ih _ rest _ j hjrest, addChildA_parent a parent i j hji]

/-- After a successful arena-level parse the synthetic root's parent
back-reference still resolves to no parent. -/
theorem parseA_root_parent (doc : List Char) (a : Arena) (r : Nat)
    (h : parseA doc = Except.ok (a, r)) :
    (a.get? r).map ANode.parent = some none := by
  unfold parseA at h
  cases hcv : create_node_vec (doc.length + 10) (Input.new doc) with
  | error e => rw [hcv] at h; exact Except.noConfusion h
  | ok vec =>
    rw [hcv] at h
    simp only [bind, Except.bind, Except.ok.injEq, Prod.mk.injEq] at h
    obtain ⟨ha, hr⟩ := h
    subst ha
    subst hr
    have hinit : ((vec.map (fun n => ANode.new n.payload) ++
        [ANode.new rootPayload]).get? vec.length) = some (ANode.new rootPayload) := by
      have hlen : (vec.map (fun n => ANode.new n.payload)).length = vec.length :=
        List.length_map _ _
      rw [← hlen]
      exact List.get?_concat_length _ _
    rw [create_node_treeA_parent vec.length _ (List.range vec.length) vec.length
      vec.length (by simp), hinit]
    rfl

/-! ### C9 -/

/-- Claim C9: the code's node equality is exactly recursive structural
equality of payload and children — reflexive (so a parse compared with an
identical parse is equal, `parse` being a function), discriminating (trees
differing anywhere, e.g. in one leaf text, compare unequal), and blind to
parent links (erasing every parent back-reference changes no comparison);
concretely, `<a>x</a>` and `<a>y</a>` parse to unequal trees. -/
theorem C9_theorem :
    (∀ (doc : List Char) (t : Node), parse doc = Except.ok t →
        nodeEq t t = true) ∧
    (∀ (n m : Node), nodeEq n m = true ↔ n = m) ∧
    (∀ (fuel : Nat) (a b : Arena) (i j : Nat),
        ndEqA fuel (stripParents a) i (stripParents b) j = ndEqA fuel a i b j) ∧
    (∃ t1 t2, parse ("<a>x</a>".toList) = Except.ok t1 ∧
        parse ("<a>y</a>".toList) = Except.ok t2 ∧ nodeEq t1 t2 = false) := by
  refine ⟨fun doc t _ => nodeEq_refl t, nodeEq_eq, ?_, ?_⟩
  · intro fuel a b i j
    exact ndEqA_pc_congr fuel _ a _ b i j (pcView_stripParents a)
      (pcView_stripParents b)
  · refine ⟨Node.mk rootPayload [Node.mk (Payload.tag (Tag.new ['a']))
        [Node.new (Payload.text ['x'])]],
      Node.mk rootPayload [Node.mk (Payload.tag (Tag.new ['a']))
        [Node.new (Payload.text ['y'])]],
      by decide, by decide, by decide⟩

/-- Witness for C9: reflexivity applied to the concrete parse of
`<a>x</a>`. -/
theorem C9_witness :
    nodeEq
      (Node.mk rootPayload [Node.mk (Payload.tag (Tag.new ['a']))
        [Node.new (Payload.text ['x'])]])
      (Node.mk rootPayload [Node.mk (Payload.tag (Tag.new ['a']))
        [Node.new (Payload.text ['x'])]]) = true :=
  C9_theorem.1 ("<a>x</a>".toList) _ (by decide)

/-! ### C8 -/

/-- Claim C8: every successful parse returns a node (never a `None`-like
value) whose payload is the synthetic `Tag` named "root" — not
self-closing, not an end tag — and whose children are exactly what the
tree builder attaches at the outermost level from the flat sequence, in
document order; at the arena level the root slot's parent back-reference
still resolves to no parent after the build.  Concretely,
`<a></a><b></b>` yields the root with children `a`, `b` in document
order. -/
theorem C8_theorem :
    (∀ (doc : List Char) (n : Node), parse doc = Except.ok n →
        n.payload = Payload.tag
          { name := "root".toList, attrs := none,
            self_closing := false, terminator := false } ∧
        ∃ vec, create_node_vec (doc.length + 10) (Input.new doc) =
            Except.ok vec ∧
          n = (create_node_tree vec (Node.new rootPayload)).2) ∧
    (∀ (doc : List Char) (a : Arena) (r : Nat),
        parseA doc = Except.ok (a, r) →
        (a.get? r).map ANode.parent = some none) ∧
    parse ("<a></a><b></b>".toList) =
      Except.ok (Node.mk rootPayload
        [Node.new (Payload.tag (Tag.new ['a'])),
         Node.new (Payload.tag (Tag.new ['b']))]) := by
  refine ⟨?_, parseA_root_parent, by decide⟩
  intro doc n h
  unfold parse at h
  cases hcv : create_node_vec (doc.length + 10) (Input.new doc) with
  | error e => rw [hcv] at h; exact Except.noConfusion h
  | ok vec =>
    rw [hcv] at h
    simp only [bind, Except.bind, Except.ok.injEq] at h
    refine ⟨?_, vec, rfl, h.symm⟩
    rw [← h]
    exact create_node_tree_bounded_payload vec.length vec (Node.new rootPayload)

/-- Witness for C8: the root-payload and parent facts applied to the
concrete documents `<a></a>` (tree level and arena level). -/
theorem C8_witness :
    ((Node.mk rootPayload [Node.new (Payload.tag (Tag.new ['a']))]).payload =
        Payload.tag
          { name := "root".toList, attrs := none,
            self_closing := false, terminator := false } ∧
      ∃ vec, create_node_vec (("<a></a>".toList).length + 10)
            (Input.new ("<a></a>".toList)) = Except.ok vec ∧
        Node.mk rootPayload [Node.new (Payload.tag (Tag.new ['a']))] =
          (create_node_tree vec (Node.new rootPayload)).2) ∧
    (([⟨Payload.tag (Tag.new ['a']), some 2, []⟩,
       ⟨Payload.tag { Tag.new ['a'] with terminator := true }, none, []⟩,
       ⟨rootPayload, none, [0]⟩] : Arena).get? 2).map ANode.parent =
      some none := by
  refine ⟨C8_theorem.1 ("<a></a>".toList) _ (by decide), ?_⟩
  exact C8_theorem.2.1 ("<a></a>".toList) _ 2 (by decide)

/-! ### C5 -/

/-- Claim C5 is false as stated for the undelimited form: `<a x=>` does
not yield `x` bound to the empty string — the undelimited value rule
searches for a space, finds none before the input ends, and the parse
fails with the missing-delimiter error. -/
theorem C5_counterexample :
    parse ("<a x=>".toList) =
      Except.error "Input ends in the middle of delimiter( )" := by
  decide

/-- Claim C5, amended: the two quoted forms `<a x="">` and `<a x=''>`
parse successfully with attribute `x` bound to the empty string; the
undelimited form `<a x=>` fails with the missing-delimiter error when no
space follows in the input, and yields `x` bound to the empty string only
when one does (e.g. `<a x=> <b>`). -/
theorem C5_amended :
    parse ("<a x=\"\">".toList) =
      Except.ok (Node.mk rootPayload
        [Node.new (Payload.tag
          { name := ['a'], attrs := some [(['x'], [])],
            self_closing := false, terminator := false })]) ∧
    parse ("<a x=''>".toList) =
      Except.ok (Node.mk rootPayload
        [Node.new (Payload.tag
          { name := ['a'], attrs := some [(['x'], [])],
            self_closing := false, terminator := false })]) ∧
    parse ("<a x=>".toList) =
      Except.error "Input ends in the middle of delimiter( )" ∧
    parse ("<a x=> <b>".toList) =
      Except.ok (Node.mk rootPayload
        [Node.new (Payload.tag
          { name := ['a'], attrs := some [(['x'], [])],
            self_closing := false, terminator := false }),
         Node.new (Payload.tag (Tag.new ['b']))]) := by
  refine ⟨by decide, by decide, by decide, by decide⟩

/-! ### Scanner search lemmas -/

theorem firstIdx_some_spec (p : Char → Bool) :
    ∀ (l : List Char) (k : Nat), firstIdx p l = some k →
      (∃ x, l.get? k = some x ∧ p x = true) ∧
        ∀ j, j < k → ∀ y, l.get? j = some y → p y = false := by
  intro l
  induction l with
  | nil => intro k h; exact Option.noConfusion h
  | cons x xs ih =>
    intro k h
    by_cases hp : p x = true
    · simp only [firstIdx, hp, if_true] at h
      cases h
      exact ⟨⟨x, rfl, hp⟩, by intro j hj; omega⟩
    · rw [Bool.not_eq_true] at hp
      simp only [firstIdx, hp, Bool.false_eq_true, if_false] at h
      rcases Option.map_eq_some'.mp h with ⟨k', hk', hkk⟩
      rcases ih k' hk' with ⟨⟨y, hy, hpy⟩, hfirst⟩
      subst hkk
      refine ⟨⟨y, by simpa using hy, hpy⟩, ?_⟩
      intro j hj z hz
      cases j with
      | zero =>
        simp only [List.get?_cons_zero, Option.some.injEq] at hz
        rw [← hz]
        exact hp
      | succ j' =>
        exact hfirst j' (by omega) z (by simpa using hz)

theorem firstIdx_none_spec (p : Char → Bool) :
    ∀ (l : List Char), firstIdx p l = none →
      ∀ y ∈ l, p y = false := by
  intro l
  induction l with
  | nil => intro _ y hy; cases hy
  | cons x xs ih =>
    intro h y hy
    by_cases hp : p x = true
    · simp [firstIdx, hp] at h
    · rw [Bool.not_eq_true] at hp
      simp only [firstIdx, hp, Bool.false_eq_true, if_false,
        Option.map_eq_none'] at h
      rcases List.mem_cons.mp hy with h1 | h2
      · rw [h1]; exact hp
      · exact ih h y h2

/-- What `Input.find` returns: the position of the first occurrence of the
character at or after the cursor. -/
theorem find_some_spec (i : Input) (c : Char) (pos : Nat)
    (h : i.find c = some pos) :
    i.cursor ≤ pos ∧ pos < i.s.length ∧ i.s.get? pos = some c ∧
      ∀ j, i.cursor ≤ j → j < pos → i.s.get? j ≠ some c := by
  rcases Option.map_eq_some'.mp h with ⟨k, hk, hkk⟩
  rcases firstIdx_some_spec _ _ _ hk with ⟨⟨x, hx, hpx⟩, hfirst⟩
  have hxc : x = c := beq_iff_eq.mp hpx
  rw [hxc] at hx
  subst hkk
  rw [List.get?_drop] at hx
  have hlen : i.cursor + k < i.s.length := by
    rcases List.get?_eq_some.mp hx with ⟨hl, _⟩
    exact hl
  refine ⟨by omega, by omega,
    by rw [Nat.add_comm i.cursor k] at hx; exact hx, ?_⟩
  intro j hj1 hj2 hjc
  have hj' : (i.s.drop i.cursor).get? (j - i.cursor) = some c := by
    rw [List.get?_drop]
    have : i.cursor + (j - i.cursor) = j := by omega
    rw [this]
    exact hjc
  have := hfirst (j - i.cursor) (by omega) c hj'
  rw [beq_self_eq_true] at this
  exact Bool.noConfusion this

theorem find_none_spec (i : Input) (c : Char)
    (h : i.find c = none) :
    ∀ j, i.cursor ≤ j → i.s.get? j ≠ some c := by
  simp only [Input.find, Option.map_eq_none'] at h
  intro j hj hjc
  have hj' : (i.s.drop i.cursor).get? (j - i.cursor) = some c := by
    rw [List.get?_drop]
    have : i.cursor + (j - i.cursor) = j := by omega
    rw [this]
    exact hjc
  have hmem : c ∈ i.s.drop i.cursor := List.get?_mem hj'
  have := firstIdx_none_spec _ _ h c hmem
  rw [beq_self_eq_true] at this
  exact Bool.noConfusion this

/-! ### C3 -/

/-- Claim C3 is false as stated: a whitespace-only run of length two
between `<a>` and `</a>` is not skipped whole — only its first character
is, and the remainder is emitted as a whitespace-only Text node between
the adjacent tags. -/
theorem C3_counterexample :
    parse ("<a>  </a>".toList) =
      Except.ok (Node.mk rootPayload
        [Node.mk (Payload.tag (Tag.new ['a']))
          [Node.new (Payload.text [' '])]]) := by
  decide

/-- Claim C3, amended: at a text position the tokenizer skips exactly one
leading `' '` or `'\n'`; a whitespace run of length one immediately
preceding `<` is therefore skipped entirely and produces no node, while a
longer run preceding `<` is emitted as a Text node holding the run minus
its first character.  Concretely, `<a> </a>` gives `a` no children while
`<a>  </a>` gives `a` a one-space Text child. -/
theorem C3_amended :
    (∀ (i : Input),
        (i.s.get? i.cursor = some ' ' ∨ i.s.get? i.cursor = some '\n') →
        i.s.get? (i.cursor + 1) = some '<' →
        text_step i = Except.ok (none, i.next_char)) ∧
    (∀ (i : Input) (p : Nat),
        (i.s.get? i.cursor = some ' ' ∨ i.s.get? i.cursor = some '\n') →
        (i.next_char).find '<' = some p →
        p ≠ i.cursor + 1 →
        text_step i = Except.ok
          (some (Node.new (Payload.text
            ((i.s.drop (i.cursor + 1)).take (p - (i.cursor + 1))))),
           (i.next_char).set_cursor p)) ∧
    parse ("<a> </a>".toList) =
      Except.ok (Node.mk rootPayload
        [Node.mk (Payload.tag (Tag.new ['a'])) []]) ∧
    parse ("<a>  </a>".toList) =
      Except.ok (Node.mk rootPayload
        [Node.mk (Payload.tag (Tag.new ['a']))
          [Node.new (Payload.text [' '])]]) := by
  refine ⟨?_, ?_, by decide, by decide⟩
  · intro i hws hlt
    have hcond : (i.expect ' ' || i.expect '\n') = true := by
      rcases hws with h | h <;> simp only [Input.expect] <;> rw [h] <;> rfl
    have hexp : (i.next_char).expect '<' = true := by
      simp only [Input.expect, Input.next_char]
      rw [hlt]
      rfl
    simp only [text_step, hcond, if_true, hexp, Bool.not_true,
      Bool.false_eq_true, if_false]
  · intro i p hws hfind hne
    rcases find_some_spec _ _ _ hfind with ⟨hge, hlt, hat, hfirst⟩
    simp only [Input.next_char] at hge hlt hat hfirst
    have hcond : (i.expect ' ' || i.expect '\n') = true := by
      rcases hws with h | h <;> simp only [Input.expect] <;> rw [h] <;> rfl
    have hexp : (i.next_char).expect '<' = false := by
      simp only [Input.expect, Input.next_char, beq_eq_false_iff_ne, ne_eq]
      intro hcontra
      exact hfirst (i.cursor + 1) (by omega) (by omega) hcontra
    have hgs : (((i.next_char).set_cursor p).get_string (i.cursor + 1) p) =
        Except.ok ((i.s.drop (i.cursor + 1)).take (p - (i.cursor + 1))) := by
      have hcnd : i.cursor + 1 ≤ p ∧ p ≤ i.s.length := ⟨by omega, by omega⟩
      unfold Input.get_string Input.set_cursor Input.next_char
      rw [if_pos hcnd]
    simp only [text_step, hcond, if_true, hexp, Bool.not_false, if_true,
      parse_text, hfind]
    rw [show (i.next_char).get_cursor = i.cursor + 1 from rfl, hgs]
    rfl

/-- Witness for C3: the two amended rules applied at the concrete states
reached inside `<a> </a>` (run of one) and `<a>  </a>` (run of two). -/
theorem C3_amended_witness :
    text_step ⟨"<a> </a>".toList, 3⟩ =
      Except.ok (none, Input.next_char ⟨"<a> </a>".toList, 3⟩) ∧
    text_step ⟨"<a>  </a>".toList, 3⟩ =
      Except.ok (some (Node.new (Payload.text [' '])),
        Input.set_cursor (Input.next_char ⟨"<a>  </a>".toList, 3⟩) 5) := by
  constructor
  · exact C3_amended.1 ⟨"<a> </a>".toList, 3⟩ (by decide) (by decide)
  · have h := C3_amended.2.1 ⟨"<a>  </a>".toList, 3⟩ 5 (by decide) (by decide)
      (by decide)
    simpa using h

/-! ### C6 -/

theorem nextStop_le (i : Input) (c : Char) (te : Nat) : nextStop i c te ≤ te := by
  unfold nextStop
  split
  · split <;> omega
  · omega

/-- The attribute-name end computed by `parse_attr_slot` — the `=`
position capped at tag-end, then lowered to an earlier space — equals the
nearer of the next `=` and the next space (each capped at tag-end). -/
theorem attr_name_end_eq_min (i : Input) (te : Nat) :
    (match i.find ' ' with
     | some cursor =>
       if cursor < (match i.find '=' with
            | some cursor => if cursor < te then cursor else te
            | none => te) then cursor
       else (match i.find '=' with
            | some cursor => if cursor < te then cursor else te
            | none => te)
     | none => (match i.find '=' with
          | some cursor => if cursor < te then cursor else te
          | none => te)) =
      min (nextStop i '=' te) (nextStop i ' ' te) := by
  cases hsp : i.find ' ' <;> cases heq : i.find '=' <;>
    simp only [nextStop, hsp, heq] <;> (repeat' split) <;> omega

theorem get_string_ok_eq (i : Input) (b e : Nat) (s : List Char)
    (h : i.get_string b e = Except.ok s) :
    s = (i.s.drop b).take (e - b) := by
  unfold Input.get_string at h
  split at h
  · cases h; rfl
  · exact Except.noConfusion h

theorem bind_ok_inv {α β : Type} (X : Except String α)
    (f : α → Except String β) (b : β)
    (h : Except.bind X f = Except.ok b) :
    ∃ a, X = Except.ok a ∧ f a = Except.ok b := by
  cases X with
  | error e => exact Except.noConfusion h
  | ok a => exact ⟨a, rfl, h⟩

/-- The attribute name produced by one attribute slot is the span from the
slot start to the nearer of the next `=` and the next space, capped at
tag-end: the claim's name rule. -/
theorem parse_attr_slot_name (i : Input) (te : Nat) (nm v : List Char)
    (i2 : Input) (h : parse_attr_slot i te = Except.ok (nm, v, i2)) :
    nm = (i.s.drop i.cursor).take
      (min (nextStop i '=' te) (nextStop i ' ' te) - i.cursor) := by
  simp only [parse_attr_slot, bind] at h
  rw [attr_name_end_eq_min] at h
  rcases bind_ok_inv _ _ _ h with ⟨s, hgs, h2⟩
  have hs := get_string_ok_eq _ _ _ _ hgs
  have hnm : nm = s := by
    split at h2
    · split at h2
      · split at h2
        · split at h2 <;> (try split at h2) <;>
            (rcases bind_ok_inv _ _ _ h2 with ⟨pr, _, h3⟩;
             obtain ⟨av, inp⟩ := pr;
             simp only [Except.ok.injEq, Prod.mk.injEq] at h3;
             exact h3.1.symm)
        · simp only [Except.ok.injEq, Prod.mk.injEq] at h2
          exact h2.1.symm
      · simp only [Except.ok.injEq, Prod.mk.injEq] at h2
        exact h2.1.symm
    · simp only [Except.ok.injEq, Prod.mk.injEq] at h2
      exact h2.1.symm
  rw [hnm]
  exact hs

/-- When no `=` occurs between the computed name end and the tag end, the
slot's value is the empty string: no value is parsed. -/
theorem parse_attr_slot_no_eq (i : Input) (te : Nat) (nm v : List Char)
    (i2 : Input) (h : parse_attr_slot i te = Except.ok (nm, v, i2))
    (hno : ∀ p,
      (i.set_cursor (min (nextStop i '=' te) (nextStop i ' ' te))).find '=' =
        some p → ¬ p < te) :
    v = [] := by
  simp only [parse_attr_slot, bind] at h
  rw [attr_name_end_eq_min] at h
  rcases bind_ok_inv _ _ _ h with ⟨s, _, h2⟩
  split at h2
  · split at h2
    case _ p hp =>
      split at h2
      case isTrue hlt => exact absurd hlt (hno p hp)
      case isFalse =>
        simp only [Except.ok.injEq, Prod.mk.injEq] at h2
        exact h2.2.1.symm
    case _ hp =>
      simp only [Except.ok.injEq, Prod.mk.injEq] at h2
      exact h2.2.1.symm
  · simp only [Except.ok.injEq, Prod.mk.injEq] at h2
    exact h2.2.1.symm

/-- When some `=` does occur before tag-end after the name (the first one,
at position `p`, even if unrelated attribute names lie in between), the
slot parses a value with the delimiter-aware rules, the delimiter chosen
by the character after that `=`. -/
theorem parse_attr_slot_eq_trigger (i : Input) (te p : Nat)
    (hne : min (nextStop i '=' te) (nextStop i ' ' te) ≠ te)
    (hfind :
      (i.set_cursor (min (nextStop i '=' te) (nextStop i ' ' te))).find '=' =
        some p)
    (hp : p < te) :
    parse_attr_slot i te = Except.bind
      ((i.set_cursor
          (min (nextStop i '=' te) (nextStop i ' ' te))).get_string i.cursor
        (min (nextStop i '=' te) (nextStop i ' ' te)))
      (fun nm =>
        if (i.set_cursor (p + 1)).expect '"' then
          Except.bind (parse_tag_attr_value (i.set_cursor (p + 1)) te '"')
            (fun r => Except.ok (nm, r.1, r.2))
        else if (i.set_cursor (p + 1)).expect '\'' then
          Except.bind (parse_tag_attr_value (i.set_cursor (p + 1)) te '\'')
            (fun r => Except.ok (nm, r.1, r.2))
        else
          Except.bind (parse_tag_attr_value (i.set_cursor (p + 1)) te ' ')
            (fun r => Except.ok (nm, r.1, r.2))) := by
  simp only [parse_attr_slot, bind]
  rw [attr_name_end_eq_min]
  have hguard :
      ((min (nextStop i '=' te) (nextStop i ' ' te)) != te) = true := by
    simp only [bne_iff_ne, ne_eq]
    exact hne
  simp only [Input.set_cursor] at hfind
  simp only [Input.get_cursor, Input.set_cursor, hguard, if_true, hfind, hp]
  rfl

/-- Claim C6 is false in its value-trigger half: in `<a x y="1">` the
attribute name `x` is not immediately followed (even skipping spaces) by
`=` — the next non-space is the name `y` — yet `x` receives the value
`"1"` belonging to the `=` further ahead, and `y` is not recorded at
all. -/
theorem C6_counterexample :
    parse ("<a x y=\"1\">".toList) =
      Except.ok (Node.mk rootPayload
        [Node.new (Payload.tag
          { name := ['a'], attrs := some [(['x'], ['1'])],
            self_closing := false, terminator := false })]) := by
  decide

/-- Claim C6, amended: within one attribute slot the name ends at the
nearer of the next `=` and the next space (or tag-end if neither occurs
before it); a value is parsed whenever any `=` occurs after the name end
and before tag-end — the first such `=` triggers the delimiter-aware value
rules even when other attribute names intervene — and the attribute gets
the empty value exactly when no such `=` exists. -/
theorem C6_amended :
    (∀ (i : Input) (te : Nat) (nm v : List Char) (i2 : Input),
        parse_attr_slot i te = Except.ok (nm, v, i2) →
        nm = (i.s.drop i.cursor).take
          (min (nextStop i '=' te) (nextStop i ' ' te) - i.cursor)) ∧
    (∀ (i : Input) (te : Nat) (nm v : List Char) (i2 : Input),
        parse_attr_slot i te = Except.ok (nm, v, i2) →
        (∀ p, (i.set_cursor
            (min (nextStop i '=' te) (nextStop i ' ' te))).find '=' =
              some p → ¬ p < te) →
        v = []) ∧
    (∀ (i : Input) (te p : Nat),
        min (nextStop i '=' te) (nextStop i ' ' te) ≠ te →
        (i.set_cursor
            (min (nextStop i '=' te) (nextStop i ' ' te))).find '=' =
          some p →
        p < te →
        parse_attr_slot i te = Except.bind
          ((i.set_cursor
              (min (nextStop i '=' te)
                (nextStop i ' ' te))).get_string i.cursor
            (min (nextStop i '=' te) (nextStop i ' ' te)))
          (fun nm =>
            if (i.set_cursor (p + 1)).expect '"' then
              Except.bind
                (parse_tag_attr_value (i.set_cursor (p + 1)) te '"')
                (fun r => Except.ok (nm, r.1, r.2))
            else if (i.set_cursor (p + 1)).expect '\'' then
              Except.bind
                (parse_tag_attr_value (i.set_cursor (p + 1)) te '\'')
                (fun r => Except.ok (nm, r.1, r.2))
            else
              Except.bind
                (parse_tag_attr_value (i.set_cursor (p + 1)) te ' ')
                (fun r => Except.ok (nm, r.1, r.2)))) ∧
    parse ("<a x y=\"1\">".toList) =
      Except.ok (Node.mk rootPayload
        [Node.new (Payload.tag
          { name := ['a'], attrs := some [(['x'], ['1'])],
            self_closing := false, terminator := false })]) :=
  ⟨parse_attr_slot_name, parse_attr_slot_no_eq, parse_attr_slot_eq_trigger,
    by decide⟩

/-- Witness for C6: the slot rules applied at the concrete slot states of
`<a x y="1">` (name `x`, value taken from the later `=`) and `<a x>`
(no `=`, empty value). -/
theorem C6_amended_witness :
    (['x'] : List Char) =
      ((("<a x y=\"1\">".toList : List Char).drop 3).take
        (min (nextStop ⟨"<a x y=\"1\">".toList, 3⟩ '=' 10)
          (nextStop ⟨"<a x y=\"1\">".toList, 3⟩ ' ' 10) - 3)) ∧
    ([] : List Char) = [] ∧
    parse_attr_slot ⟨"<a x>".toList, 3⟩ 4 =
      Except.ok (['x'], [], ⟨"<a x>".toList, 4⟩) := by
  refine ⟨?_, rfl, by decide⟩
  exact C6_amended.1 ⟨"<a x y=\"1\">".toList, 3⟩ 10 ['x'] ['1']
    ⟨"<a x y=\"1\">".toList, 9⟩ (by decide)

/-! ### C7 -/

theorem claimTagEndAux_ge :
    ∀ (l : List Char) (pos : Nat) (dq : Bool) (r : Nat),
      claimTagEndAux l pos dq = some r → pos ≤ r := by
  intro l
  induction l with
  | nil => intro pos dq r h; exact Option.noConfusion h
  | cons x rest ih =>
    intro pos dq r h
    simp only [claimTagEndAux] at h
    split at h
    · cases h; exact Nat.le_refl _
    · have := ih (pos + 1) _ r h
      omega

/-- The scanning loop of `get_tag_end` computes exactly the claim's scan
started one position past the cursor (the loop advances before it
examines). -/
theorem getTagEndLoop_eq_claim :
    ∀ (fuel : Nat) (i : Input) (dq : Bool),
      i.s.length - i.cursor < fuel →
      getTagEndLoop fuel i dq =
        (match claimTagEndAux (i.s.drop (i.cursor + 1)) (i.cursor + 1) dq with
         | some r => r
         | none => 0) := by
  intro fuel
  induction fuel with
  | zero => intro i dq h; omega
  | succ fuel ih =>
    intro i dq hfuel
    by_cases hend : i.s.length ≤ i.cursor
    · have hisend : i.is_end = true := by
        simp [Input.is_end]
        omega
      have hdrop : i.s.drop (i.cursor + 1) = [] :=
        List.drop_eq_nil_of_le (by omega)
      simp [getTagEndLoop, hisend, hdrop, claimTagEndAux]
    · push_neg at hend
      have hisend : i.is_end = false := by
        simp [Input.is_end]
        omega
      simp only [getTagEndLoop, hisend, Bool.false_eq_true, if_false]
      by_cases hend2 : i.s.length ≤ i.cursor + 1
      · have hdrop : i.s.drop (i.cursor + 1) = [] :=
          List.drop_eq_nil_of_le hend2
        have hdrop2 : i.s.drop (i.cursor + 1 + 1) = [] :=
          List.drop_eq_nil_of_le (by omega)
        have hget : i.s.get? (i.cursor + 1) = none :=
          List.get?_eq_none.mpr hend2
        have hexp : ∀ ch, (i.next_char).expect ch = false := by
          intro ch
          simp only [Input.expect, Input.next_char]
          rw [hget]
          rfl
        simp only [hdrop, claimTagEndAux, hexp, Bool.and_false, Bool.false_eq_true,
          if_false]
        rw [ih (i.next_char) _ (by simp [Input.next_char]; omega)]
        simp [Input.next_char, hdrop2, claimTagEndAux]
      · push_neg at hend2
        have hdrop : i.s.drop (i.cursor + 1) =
            i.s.get ⟨i.cursor + 1, hend2⟩ :: i.s.drop (i.cursor + 1 + 1) :=
          List.drop_eq_get_cons hend2
        have hget : i.s.get? (i.cursor + 1) = some (i.s.get ⟨i.cursor + 1, hend2⟩) :=
          List.get?_eq_get hend2
        have hexp : ∀ ch, (i.next_char).expect ch =
            (i.s.get ⟨i.cursor + 1, hend2⟩ == ch) := by
          intro ch
          simp only [Input.expect, Input.next_char]
          rw [hget]
          rfl
        rw [hdrop]
        simp only [claimTagEndAux]
        by_cases hgt : i.s.get ⟨i.cursor + 1, hend2⟩ = '>'
        · have hq : (i.s.get ⟨i.cursor + 1, hend2⟩ == '"') = false := by
            rw [hgt]
            rfl
          have hq2 : (i.s.get ⟨i.cursor + 1, hend2⟩ == '>') = true := by
            rw [hgt]
            rfl
          simp only [hexp, hq, hq2, Bool.false_eq_true, if_false, Bool.true_and,
            Bool.and_true]
          cases dq with
          | true =>
            simp only [Bool.not_true, Bool.false_eq_true, if_false]
            rw [ih (i.next_char) true (by simp [Input.next_char]; omega)]
            rfl
          | false =>
            simp [Input.next_char, Input.get_cursor]
        · have hq2 : (i.s.get ⟨i.cursor + 1, hend2⟩ == '>') = false := by
            simp only [beq_eq_false_iff_ne, ne_eq]
            exact hgt
          simp only [hexp, hq2, Bool.and_false, Bool.false_eq_true, if_false]
          rw [ih (i.next_char) _ (by simp [Input.next_char]; omega)]
          rfl

/-- Claim C7 is false as stated: in `<>` an unquoted `>` follows the
opening `<` immediately, yet the scan — which only examines positions
strictly after the first name character — misses it and the parse fails
with `UnterminatedTag`. -/
theorem C7_counterexample :
    get_tag_end ⟨"<>".toList, 1⟩ =
      Except.error "Input ends in the middle of the tag." ∧
    claimTagEnd ("<>".toList) 1 = some 1 ∧
    parse ("<>".toList) =
      Except.error "Input ends in the middle of the tag." := by
  refine ⟨by decide, by decide, by decide⟩

/-- Claim C7, amended: provided the character at the scan start (the first
character of the tag name) is neither `>` nor `"`, the tag's terminating
`>` is the first `>` at or after that position that is not inside a
double-quoted span, and the scan fails with the `UnterminatedTag` error
exactly when no such `>` exists before the input ends; in particular
`<div` (no `>`) returns that error. -/
theorem C7_amended :
    (∀ (s : List Char) (c : Nat),
        s.get? c ≠ some '>' → s.get? c ≠ some '"' →
        get_tag_end ⟨s, c⟩ =
          (match claimTagEnd s c with
           | some r => Except.ok r
           | none => Except.error "Input ends in the middle of the tag.")) ∧
    parse ("<div".toList) =
      Except.error "Input ends in the middle of the tag." := by
  refine ⟨?_, by decide⟩
  intro s c h1 h2
  unfold get_tag_end claimTagEnd
  rw [getTagEndLoop_eq_claim (s.length - c + 1) ⟨s, c⟩ false
    (by show s.length - c < s.length - c + 1; omega)]
  have hstep : claimTagEndAux (s.drop c) c false =
      claimTagEndAux (s.drop (c + 1)) (c + 1) false := by
    by_cases hc : c < s.length
    · rw [List.drop_eq_get_cons hc]
      have hg : s.get? c = some (s.get ⟨c, hc⟩) := List.get?_eq_get hc
      have hxgt : (s.get ⟨c, hc⟩ == '>') = false := by
        rw [hg] at h1
        simp only [beq_eq_false_iff_ne, ne_eq]
        intro hcontra
        exact h1 (by rw [hcontra])
      have hxq : (s.get ⟨c, hc⟩ == '"') = false := by
        rw [hg] at h2
        simp only [beq_eq_false_iff_ne, ne_eq]
        intro hcontra
        exact h2 (by rw [hcontra])
      simp only [claimTagEndAux, hxgt, hxq, Bool.false_and, Bool.false_eq_true,
        if_false]
    · push_neg at hc
      rw [List.drop_eq_nil_of_le hc, List.drop_eq_nil_of_le (by omega)]
      rfl
  rw [hstep]
  cases haux : claimTagEndAux (s.drop (c + 1)) (c + 1) false with
  | none => rfl
  | some r =>
    have hge := claimTagEndAux_ge _ _ _ _ haux
    obtain ⟨r', rfl⟩ : ∃ r'', r = r'' + 1 := ⟨r - 1, by omega⟩
    rfl

/-- Witness for C7: the amended tag-end rule applied at the concrete state
inside `<a x=">">` — the quoted `>` is skipped and the tag ends at the
final `>`. -/
theorem C7_amended_witness :
    get_tag_end ⟨"<a x=\">\">".toList, 1⟩ =
      (match claimTagEnd ("<a x=\">\">".toList) 1 with
       | some r => Except.ok r
       | none => Except.error "Input ends in the middle of the tag.") ∧
    claimTagEnd ("<a x=\">\">".toList) 1 = some 8 := by
  refine ⟨?_, by decide⟩
  exact C7_amended.1 ("<a x=\">\">".toList) 1 (by decide) (by decide)

/-! ### C4 -/

theorem firstSubIdx_some_spec (sub : List Char) :
    ∀ (l : List Char) (k : Nat), firstSubIdx sub l = some k →
      sub.isPrefixOf (l.drop k) = true ∧
        ∀ j, j < k → sub.isPrefixOf (l.drop j) = false := by
  intro l
  induction l with
  | nil =>
    intro k h
    simp only [firstSubIdx] at h
    split at h
    case isTrue hemp =>
      cases h
      refine ⟨?_, by intro j hj; omega⟩
      rw [List.isEmpty_iff] at hemp
      rw [hemp]
      rfl
    case isFalse => exact Option.noConfusion h
  | cons x xs ih =>
    intro k h
    by_cases hpre : sub.isPrefixOf (x :: xs) = true
    · simp only [firstSubIdx, hpre, if_true] at h
      cases h
      exact ⟨hpre, by intro j hj; omega⟩
    · rw [Bool.not_eq_true] at hpre
      simp only [firstSubIdx, hpre, Bool.false_eq_true, if_false] at h
      rcases Option.map_eq_some'.mp h with ⟨k', hk', hkk⟩
      subst hkk
      rcases ih k' hk' with ⟨h1, h2⟩
      refine ⟨h1, ?_⟩
      intro j hj
      cases j with
      | zero => exact hpre
      | succ j' => exact h2 j' (by omega)

theorem firstSubIdx_none_spec (sub : List Char) :
    ∀ (l : List Char), firstSubIdx sub l = none →
      ∀ j, sub.isPrefixOf (l.drop j) = false := by
  intro l
  induction l with
  | nil =>
    intro h j
    simp only [firstSubIdx] at h
    split at h
    case isTrue => exact Option.noConfusion h
    case isFalse hemp =>
      cases sub with
      | nil => simp at hemp
      | cons a as =>
        rw [List.drop_nil]
        rfl
  | cons x xs ih =>
    intro h j
    by_cases hpre : sub.isPrefixOf (x :: xs) = true
    · simp [firstSubIdx, hpre] at h
    · rw [Bool.not_eq_true] at hpre
      simp only [firstSubIdx, hpre, Bool.false_eq_true, if_false,
        Option.map_eq_none'] at h
      cases j with
      | zero => exact hpre
      | succ j' => exact ih h j'

/-- What `Input.find_str` returns when it succeeds: the position of the
first literal occurrence of the substring at or after the cursor. -/
theorem find_str_some_spec (i : Input) (sub : List Char) (p : Nat)
    (h : i.find_str sub = some p) :
    i.cursor ≤ p ∧ sub.isPrefixOf (i.s.drop p) = true ∧
      ∀ j, i.cursor ≤ j → j < p → sub.isPrefixOf (i.s.drop j) = false := by
  rcases Option.map_eq_some'.mp h with ⟨k, hk, hkk⟩
  subst hkk
  rcases firstSubIdx_some_spec sub _ k hk with ⟨h1, h2⟩
  rw [List.drop_drop] at h1
  refine ⟨by omega, by rw [Nat.add_comm] at h1; exact h1, ?_⟩
  intro j hj1 hj2
  have := h2 (j - i.cursor) (by omega)
  rw [List.drop_drop] at this
  have hjj : i.cursor + (j - i.cursor) = j := by omega
  rw [hjj] at this
  exact this

theorem find_str_none_spec (i : Input) (sub : List Char)
    (h : i.find_str sub = none) :
    ∀ j, i.cursor ≤ j → sub.isPrefixOf (i.s.drop j) = false := by
  simp only [Input.find_str, Option.map_eq_none'] at h
  intro j hj
  have := firstSubIdx_none_spec sub _ h (j - i.cursor)
  rw [List.drop_drop] at this
  have hjj : i.cursor + (j - i.cursor) = j := by omega
  rw [hjj] at this
  exact this

/-- `parse_text_script` captures the text from the cursor verbatim up to
(not including) the position where `</script` occurs, and leaves the
cursor there. -/
theorem parse_text_script_spec (i : Input) (p : Nat)
    (h : i.find_str ("</script".toList) = some p) :
    parse_text_script i = Except.ok
      (Node.new (Payload.text ((i.s.drop i.cursor).take (p - i.cursor))),
       i.set_cursor p) := by
  rcases find_str_some_spec i _ p h with ⟨hge, hpre, _⟩
  have hlen : p ≤ i.s.length := by
    have hp := (List.isPrefixOf_iff_prefix.mp hpre).length_le
    simp only [List.length_drop] at hp
    have h8 : ("</script".toList).length = 8 := rfl
    rw [h8] at hp
    omega
  have hgs : ((i.set_cursor p).get_string i.cursor p) =
      Except.ok ((i.s.drop i.cursor).take (p - i.cursor)) := by
    have hcnd : i.cursor ≤ p ∧ p ≤ i.s.length := ⟨hge, hlen⟩
    unfold Input.get_string Input.set_cursor
    rw [if_pos hcnd]
  simp only [parse_text_script, h, bind, Except.bind, Input.get_cursor, hgs]

/-- Claim C4: right after a non-end `script` tag whose following character
is not `<`, the tokenizer loop invokes the verbatim script rule, which
captures the body up to (not including) the first literal `</script`
(characterized exactly by `find_str`); concretely,
`<script>alert("<b>not a tag</b>");</script>` parses to a `script`
element with exactly one Text child holding the literal code, embedded
tags included. -/
theorem C4_theorem :
    (∀ (i : Input) (p : Nat),
        i.find_str ("</script".toList) = some p →
        parse_text_script i = Except.ok
          (Node.new (Payload.text ((i.s.drop i.cursor).take (p - i.cursor))),
           i.set_cursor p)) ∧
    (∀ (i : Input) (p : Nat), i.find_str ("</script".toList) = some p →
        i.cursor ≤ p ∧ ("</script".toList).isPrefixOf (i.s.drop p) = true ∧
          ∀ j, i.cursor ≤ j → j < p →
            ("</script".toList).isPrefixOf (i.s.drop j) = false) ∧
    (∀ (fuel : Nat) (input input' : Input) (node : Node) (acc : List Node),
        input.is_end = false →
        input.expect_str ("<!--".toList) = false →
        input.expect '<' = true →
        parse_tag input = Except.ok (node, input') →
        (match node.payload with
         | Payload.tag tag => tag.name == "script".toList && !tag.terminator
         | _ => false) = true →
        input'.expect '<' = false →
        create_node_vec_loop (fuel + 1) input acc = Except.bind
          (parse_text_script input')
          (fun r => create_node_vec_loop fuel r.2 (acc ++ [node] ++ [r.1]))) ∧
    parse ("<script>alert(\"<b>not a tag</b>\");</script>".toList) =
      Except.ok (Node.mk rootPayload
        [Node.mk (Payload.tag (Tag.new ("script".toList)))
          [Node.new (Payload.text ("alert(\"<b>not a tag</b>\");".toList))]]) := by
  refine ⟨parse_text_script_spec, ?_, ?_, by decide⟩
  · intro i p h
    exact find_str_some_spec i _ p h
  · intro fuel input input' node acc hend hcm hlt htag hscript hnext
    simp only [create_node_vec_loop, hend, Bool.false_eq_true, if_false, hcm,
      hlt, if_true, bind, Except.bind, htag, hscript, hnext, Bool.not_false,
      Bool.and_true, Bool.true_and, if_true]

/-- Witness for C4: the verbatim-capture rule and the first-occurrence
characterization applied inside the concrete script document. -/
theorem C4_witness :
    parse_text_script ⟨"<script>ab</script>".toList, 8⟩ =
      Except.ok (Node.new (Payload.text ['a', 'b']),
        ⟨"<script>ab</script>".toList, 10⟩) ∧
    (8 ≤ 10 ∧
      ("</script".toList).isPrefixOf
        (("<script>ab</script>".toList).drop 10) = true ∧
      ∀ j, 8 ≤ j → j < 10 →
        ("</script".toList).isPrefixOf
          (("<script>ab</script>".toList).drop j) = false) := by
  constructor
  · have h := C4_theorem.1 ⟨"<script>ab</script>".toList, 8⟩ 10 (by decide)
    exact h
  · exact C4_theorem.2.1 ⟨"<script>ab</script>".toList, 8⟩ 10 (by decide)

/-! ### C10: prefix-shift invariance of the tokenizer

The claim is that everything before the first `<` is skipped and leaves
no trace: formally, running the tokenizer on `pre ++ rest` (with no `<`
in `pre` and `rest` starting at one) produces the same flat node sequence
as running it on `rest` alone.  The proof relates each scanner state
`⟨rest, c⟩` to its shifted twin `⟨pre ++ rest, pre.length + c⟩` through
every parsing function. -/

theorem shift_expect (pre : List Char) (i : Input) (c : Char) :
    (shiftInput pre i).expect c = i.expect c := by
  simp only [Input.expect, shiftInput]
  rw [List.get?_append_right (by omega)]
  congr 2
  omega

theorem shift_is_end (pre : List Char) (i : Input) :
    (shiftInput pre i).is_end = i.is_end := by
  simp only [Input.is_end, shiftInput, List.length_append]
  exact decide_eq_decide.mpr (by omega)

theorem shift_next (pre : List Char) (i : Input) :
    (shiftInput pre i).next = shiftInput pre i.next := rfl

theorem shift_next_char (pre : List Char) (i : Input) :
    (shiftInput pre i).next_char = shiftInput pre i.next_char := rfl

theorem shift_set_cursor (pre : List Char) (i : Input) (p : Nat) :
    (shiftInput pre i).set_cursor (pre.length + p) =
      shiftInput pre (i.set_cursor p) := rfl

theorem shift_get_cursor (pre : List Char) (i : Input) :
    (shiftInput pre i).get_cursor = pre.length + i.get_cursor := rfl

theorem shift_drop (pre : List Char) (i : Input) :
    (shiftInput pre i).s.drop (shiftInput pre i).cursor = i.s.drop i.cursor := by
  simp only [shiftInput]
  exact List.drop_append i.cursor

theorem shift_find (pre : List Char) (i : Input) (c : Char) :
    (shiftInput pre i).find c =
      (i.find c).map (fun p => pre.length + p) := by
  simp only [Input.find, shift_drop]
  cases firstIdx (fun x => x == c) (i.s.drop i.cursor) with
  | none => rfl
  | some a =>
    simp only [Option.map_some', Option.some.injEq, shiftInput]
    omega

theorem shift_find_str (pre : List Char) (i : Input) (sub : List Char) :
    (shiftInput pre i).find_str sub =
      (i.find_str sub).map (fun p => pre.length + p) := by
  simp only [Input.find_str, shift_drop]
  cases firstSubIdx sub (i.s.drop i.cursor) with
  | none => rfl
  | some a =>
    simp only [Option.map_some', Option.some.injEq, shiftInput]
    omega

theorem shift_expect_str (pre : List Char) (i : Input) (sub : List Char) :
    (shiftInput pre i).expect_str sub = i.expect_str sub := by
  simp only [Input.expect_str, shift_drop]

theorem shift_get_string (pre : List Char) (i : Input) (b e : Nat) :
    (shiftInput pre i).get_string (pre.length + b) (pre.length + e) =
      i.get_string b e := by
  simp only [Input.get_string, shiftInput, List.length_append]
  by_cases hc : b ≤ e ∧ e ≤ i.s.length
  · rw [if_pos (by omega), if_pos hc]
    have hd : (pre ++ i.s).drop (pre.length + b) = i.s.drop b :=
      List.drop_append b
    rw [hd]
    have ht : pre.length + e - (pre.length + b) = e - b := by omega
    rw [ht]
  · rw [if_neg (by omega), if_neg hc]

theorem shift_beq_nat (k a b : Nat) : (k + a == k + b) = (a == b) := by
  by_cases h : a = b
  · rw [h, beq_self_eq_true, beq_self_eq_true]
  · have h1 : (k + a == k + b) = false := by
      simp only [beq_eq_false_iff_ne, ne_eq]
      omega
    have h2 : (a == b) = false := by
      simp only [beq_eq_false_iff_ne, ne_eq]
      exact h
    rw [h1, h2]

theorem shift_getTagEndLoop (pre : List Char) :
    ∀ (fuel : Nat) (i : Input) (dq : Bool),
      getTagEndLoop fuel (shiftInput pre i) dq =
        (match getTagEndLoop fuel i dq with
         | 0 => 0
         | Nat.succ r => pre.length + r + 1) := by
  intro fuel
  induction fuel with
  | zero => intro i dq; rfl
  | succ fuel ih =>
    intro i dq
    simp only [getTagEndLoop, shift_is_end]
    cases hend : i.is_end with
    | true => rfl
    | false =>
      simp only [Bool.false_eq_true, if_false, shift_next_char, shift_expect]
      cases hcond : (!(if i.next_char.expect '"' then !dq else dq) &&
          i.next_char.expect '>') with
      | true =>
        simp only [if_true]
        rfl
      | false =>
        simp only [Bool.false_eq_true, if_false]
        exact ih i.next_char _

theorem shift_get_tag_end (pre : List Char) (i : Input) :
    get_tag_end (shiftInput pre i) =
      (get_tag_end i).map (fun p => pre.length + p) := by
  unfold get_tag_end
  have hf : (shiftInput pre i).s.length - (shiftInput pre i).cursor + 1 =
      i.s.length - i.cursor + 1 := by
    simp only [shiftInput, List.length_append]
    omega
  rw [hf, shift_getTagEndLoop]
  cases getTagEndLoop (i.s.length - i.cursor + 1) i false with
  | zero => rfl
  | succ r => rfl

theorem shift_parse_tag_attr_value (pre : List Char) (i : Input) (te : Nat)
    (d : Char) :
    parse_tag_attr_value (shiftInput pre i) (pre.length + te) d =
      shiftP pre (parse_tag_attr_value i te d) := by
  unfold parse_tag_attr_value
  simp only [bind]
  have hinit : (if d != ' ' then (shiftInput pre i).next else shiftInput pre i) =
      shiftInput pre (if d != ' ' then i.next else i) := by
    cases (d != ' ') <;> rfl
  rw [hinit]
  rw [shift_find]
  cases hf : (if d != ' ' then i.next else i).find d with
  | none => rfl
  | some c =>
    simp only [Option.map_some']
    by_cases hc : c < te
    · rw [if_pos (by omega : pre.length + c < pre.length + te), if_pos hc]
      simp only [Except.bind]
      rw [show (shiftInput pre (if d != ' ' then i.next else i)).get_cursor =
          pre.length + (if d != ' ' then i.next else i).get_cursor from rfl]
      rw [shift_beq_nat]
      cases hemp : ((if d != ' ' then i.next else i).get_cursor == c) with
      | true => rfl
      | false =>
        rw [show (shiftInput pre (if d != ' ' then i.next else i)).set_cursor
            (pre.length + c) =
            shiftInput pre ((if d != ' ' then i.next else i).set_cursor c)
            from rfl]
        rw [show (shiftInput pre
            ((if d != ' ' then i.next else i).set_cursor c)).get_string
            (pre.length + (if d != ' ' then i.next else i).get_cursor)
            (pre.length + c) =
            ((if d != ' ' then i.next else i).set_cursor c).get_string
            ((if d != ' ' then i.next else i).get_cursor) c
            from shift_get_string pre _ _ _]
        cases ((if d != ' ' then i.next else i).set_cursor c).get_string
            ((if d != ' ' then i.next else i).get_cursor) c with
        | error e => rfl
        | ok s => rfl
    · rw [if_neg (by omega), if_neg hc]
      cases hdsp : (d == ' ') with
      | false => rfl
      | true =>
        simp only [if_true, Except.bind]
        rw [show (shiftInput pre (if d != ' ' then i.next else i)).get_cursor =
            pre.length + (if d != ' ' then i.next else i).get_cursor from rfl]
        rw [shift_beq_nat]
        cases hemp : ((if d != ' ' then i.next else i).get_cursor == te) with
        | true => rfl
        | false =>
          rw [show (shiftInput pre (if d != ' ' then i.next else i)).set_cursor
              (pre.length + te) =
              shiftInput pre ((if d != ' ' then i.next else i).set_cursor te)
              from rfl]
          rw [show (shiftInput pre
              ((if d != ' ' then i.next else i).set_cursor te)).get_string
              (pre.length + (if d != ' ' then i.next else i).get_cursor)
              (pre.length + te) =
              ((if d != ' ' then i.next else i).set_cursor te).get_string
              ((if d != ' ' then i.next else i).get_cursor) te
              from shift_get_string pre _ _ _]
          cases ((if d != ' ' then i.next else i).set_cursor te).get_string
              ((if d != ' ' then i.next else i).get_cursor) te with
          | error e => rfl
          | ok s => rfl

theorem shift_bne_nat (k a b : Nat) : (k + a != k + b) = (a != b) := by
  simp only [bne]
  rw [shift_beq_nat]

theorem shiftP_bind_pure {α β : Type} (pre : List Char) (X : Except String α)
    (f g : α → Except String (β × Input))
    (hfg : ∀ a, f a = shiftP pre (g a)) :
    Except.bind X f = shiftP pre (Except.bind X g) := by
  cases X with
  | error e => rfl
  | ok a => exact hfg a

theorem shiftP2_bind_pure {α β γ : Type} (pre : List Char) (X : Except String α)
    (f g : α → Except String (β × γ × Input))
    (hfg : ∀ a, f a = shiftP2 pre (g a)) :
    Except.bind X f = shiftP2 pre (Except.bind X g) := by
  cases X with
  | error e => rfl
  | ok a => exact hfg a

theorem shiftP_bind {α β : Type} (pre : List Char)
    (X : Except String (α × Input))
    (f g : α × Input → Except String (β × Input))
    (hfg : ∀ a inp, f (a, shiftInput pre inp) = shiftP pre (g (a, inp))) :
    Except.bind (shiftP pre X) f = shiftP pre (Except.bind X g) := by
  cases X with
  | error e => rfl
  | ok p =>
    obtain ⟨a, inp⟩ := p
    exact hfg a inp

theorem shiftP2_of_shiftP_bind {α β γ : Type} (pre : List Char)
    (X : Except String (α × Input))
    (f g : α × Input → Except String (β × γ × Input))
    (hfg : ∀ a inp, f (a, shiftInput pre inp) = shiftP2 pre (g (a, inp))) :
    Except.bind (shiftP pre X) f = shiftP2 pre (Except.bind X g) := by
  cases X with
  | error e => rfl
  | ok p =>
    obtain ⟨a, inp⟩ := p
    exact hfg a inp

theorem shift_parse_attr_slot (pre : List Char) (i : Input) (te : Nat) :
    parse_attr_slot (shiftInput pre i) (pre.length + te) =
      shiftP2 pre (parse_attr_slot i te) := by
  simp only [parse_attr_slot, bind]
  have he1 : (match (shiftInput pre i).find '=' with
      | some cursor =>
        if cursor < pre.length + te then cursor else pre.length + te
      | none => pre.length + te) =
      pre.length + (match i.find '=' with
      | some cursor => if cursor < te then cursor else te
      | none => te) := by
    rw [shift_find]
    cases i.find '=' with
    | none => rfl
    | some c =>
      simp only [Option.map_some']
      by_cases hc : c < te
      · rw [if_pos (by omega), if_pos hc]
      · rw [if_neg (by omega), if_neg hc]
  rw [he1]
  generalize (match i.find '=' with
      | some cursor => if cursor < te then cursor else te
      | none => te) = e1 at *
  have he2 : (match (shiftInput pre i).find ' ' with
      | some cursor =>
        if cursor < pre.length + e1 then cursor else pre.length + e1
      | none => pre.length + e1) =
      pre.length + (match i.find ' ' with
      | some cursor => if cursor < e1 then cursor else e1
      | none => e1) := by
    rw [shift_find]
    cases i.find ' ' with
    | none => rfl
    | some c =>
      simp only [Option.map_some']
      by_cases hc : c < e1
      · rw [if_pos (by omega), if_pos hc]
      · rw [if_neg (by omega), if_neg hc]
  rw [he2]
  generalize (match i.find ' ' with
      | some cursor => if cursor < e1 then cursor else e1
      | none => e1) = ne at *
  rw [show (shiftInput pre i).get_cursor = pre.length + i.get_cursor from rfl]
  rw [show (shiftInput pre i).set_cursor (pre.length + ne) =
      shiftInput pre (i.set_cursor ne) from rfl]
  rw [shift_get_string]
  refine shiftP2_bind_pure pre _ _ _ ?_
  intro nm
  rw [show (shiftInput pre (i.set_cursor ne)).get_cursor =
      pre.length + (i.set_cursor ne).get_cursor from rfl]
  rw [shift_bne_nat]
  cases hg : ((i.set_cursor ne).get_cursor != te) with
  | false => rfl
  | true =>
    simp only [if_true]
    rw [shift_find]
    cases hf : (i.set_cursor ne).find '=' with
    | none => rfl
    | some p =>
      simp only [Option.map_some']
      by_cases hp : p < te
      · rw [if_pos (by omega), if_pos hp]
        rw [show ((shiftInput pre (i.set_cursor ne)).set_cursor
            (pre.length + p)).next_char =
            shiftInput pre (((i.set_cursor ne).set_cursor p).next_char)
            from rfl]
        rw [shift_expect, shift_expect]
        cases h1 : (((i.set_cursor ne).set_cursor p).next_char).expect '"' with
        | true =>
          simp only [if_true]
          rw [shift_parse_tag_attr_value]
          refine shiftP2_of_shiftP_bind pre _ _ _ ?_
          intro a inp
          rfl
        | false =>
          simp only [Bool.false_eq_true, if_false]
          cases h2 :
              (((i.set_cursor ne).set_cursor p).next_char).expect '\'' with
          | true =>
            simp only [if_true]
            rw [shift_parse_tag_attr_value]
            refine shiftP2_of_shiftP_bind pre _ _ _ ?_
            intro a inp
            rfl
          | false =>
            simp only [Bool.false_eq_true, if_false]
            rw [shift_parse_tag_attr_value]
            refine shiftP2_of_shiftP_bind pre _ _ _ ?_
            intro a inp
            rfl
      · rw [if_neg (by omega), if_neg hp]
        rfl

theorem shift_parse_tag_attr_loop (pre : List Char) :
    ∀ (fuel : Nat) (i : Input) (te : Nat) (m : AttrMap),
      parse_tag_attr_loop fuel (shiftInput pre i) (pre.length + te) m =
        shiftP pre (parse_tag_attr_loop fuel i te m) := by
  intro fuel
  induction fuel with
  | zero => intro i te m; rfl
  | succ fuel ih =>
    intro i te m
    simp only [parse_tag_attr_loop, shift_expect, bind]
    cases h1 : i.expect '>' with
    | true => rfl
    | false =>
      simp only [Bool.false_eq_true, if_false]
      rw [shift_parse_attr_slot]
      cases hX : parse_attr_slot i te with
      | error e => rfl
      | ok r =>
        obtain ⟨nm, v, inp⟩ := r
        simp only [shiftP2, Except.bind, shift_expect]
        cases h2 : inp.expect '>' with
        | true => rfl
        | false =>
          simp only [Bool.false_eq_true, if_false]
          exact ih inp.next_char te (insertAttr m nm v)

theorem shift_parse_tag_attr (pre : List Char) (i : Input) (tag : Tag) :
    parse_tag_attr (shiftInput pre i) tag =
      shiftP pre (parse_tag_attr i tag) := by
  simp only [parse_tag_attr, bind]
  rw [shift_get_tag_end]
  cases hte : get_tag_end i with
  | error e => rfl
  | ok te =>
    simp only [Except.map, Except.bind]
    have hfuel : (shiftInput pre i).s.length - (shiftInput pre i).cursor + 2 =
        i.s.length - i.cursor + 2 := by
      simp only [shiftInput, List.length_append]
      omega
    rw [hfuel, shift_parse_tag_attr_loop]
    refine shiftP_bind pre _ _ _ ?_
    intro m inp
    rfl

theorem shift_parse_tag_name (pre : List Char) (i : Input) (b : Bool) :
    parse_tag_name (shiftInput pre i) b =
      shiftP pre (parse_tag_name i b) := by
  simp only [parse_tag_name, bind]
  rw [shift_get_tag_end]
  cases hte : get_tag_end i with
  | error e => rfl
  | ok te =>
    simp only [Except.map, Except.bind]
    have hne : (match (shiftInput pre i).find ' ' with
        | some cursor =>
          if cursor < pre.length + te then cursor else pre.length + te
        | none => pre.length + te) =
        pre.length + (match i.find ' ' with
        | some cursor => if cursor < te then cursor else te
        | none => te) := by
      rw [shift_find]
      cases i.find ' ' with
      | none => rfl
      | some c =>
        simp only [Option.map_some']
        by_cases hc : c < te
        · rw [if_pos (by omega), if_pos hc]
        · rw [if_neg (by omega), if_neg hc]
    rw [hne]
    generalize (match i.find ' ' with
        | some cursor => if cursor < te then cursor else te
        | none => te) = ne at *
    rw [show (shiftInput pre i).set_cursor (pre.length + ne) =
        shiftInput pre (i.set_cursor ne) from rfl]
    rw [show (shiftInput pre i).get_cursor = pre.length + i.get_cursor from rfl]
    rw [shift_get_string]
    refine shiftP_bind_pure pre _ _ _ ?_
    intro s
    rw [shift_expect]
    cases h1 : (i.set_cursor ne).expect '>' with
    | true => rfl
    | false =>
      simp only [Bool.false_eq_true, if_false]
      rw [show (shiftInput pre (i.set_cursor ne)).next_char =
          shiftInput pre ((i.set_cursor ne).next_char) from rfl]
      rw [shift_expect]
      cases h2 : ((i.set_cursor ne).next_char).expect '>' with
      | true => rfl
      | false =>
        simp only [Bool.false_eq_true, if_false]
        exact shift_parse_tag_attr pre ((i.set_cursor ne).next_char) _

theorem shift_parse_tag (pre : List Char) (i : Input) :
    parse_tag (shiftInput pre i) = shiftP pre (parse_tag i) := by
  simp only [parse_tag, bind]
  rw [show (shiftInput pre i).next = shiftInput pre i.next from rfl]
  rw [shift_expect]
  cases h1 : i.next.expect '/' with
  | true =>
    simp only [if_true]
    rw [show (shiftInput pre i.next).next = shiftInput pre i.next.next from rfl]
    rw [shift_parse_tag_name]
    refine shiftP_bind pre _ _ _ ?_
    intro tag inp
    rfl
  | false =>
    simp only [Bool.false_eq_true, if_false]
    rw [shift_parse_tag_name]
    refine shiftP_bind pre _ _ _ ?_
    intro tag inp
    rfl

theorem shift_parse_comment (pre : List Char) (i : Input) :
    parse_comment (shiftInput pre i) = shiftP pre (parse_comment i) := by
  simp only [parse_comment, bind]
  rw [shift_find_str]
  cases hf : i.find_str ("-->".toList) with
  | none => rfl
  | some c =>
    simp only [Option.map_some']
    rw [show (shiftInput pre i).set_cursor (pre.length + c + 3) =
        shiftInput pre (i.set_cursor (c + 3)) from rfl]
    rw [show (shiftInput pre i).get_cursor + 4 =
        pre.length + (i.get_cursor + 4) from rfl]
    rw [shift_get_string]
    refine shiftP_bind_pure pre _ _ _ ?_
    intro s
    rfl

theorem shift_parse_text (pre : List Char) (i : Input) :
    parse_text (shiftInput pre i) = shiftP pre (parse_text i) := by
  simp only [parse_text, bind]
  rw [shift_find]
  cases hf : i.find '<' with
  | none =>
    simp only [Option.map_none']
    rw [show (shiftInput pre i).next_char =
        shiftInput pre i.next_char from rfl]
    rw [show (shiftInput pre i).get_cursor = pre.length + i.get_cursor from rfl]
    rw [show (shiftInput pre i.next_char).get_cursor =
        pre.length + i.next_char.get_cursor from rfl]
    rw [shift_get_string]
    refine shiftP_bind_pure pre _ _ _ ?_
    intro s
    rfl
  | some c =>
    simp only [Option.map_some']
    rw [show (shiftInput pre i).set_cursor (pre.length + c) =
        shiftInput pre (i.set_cursor c) from rfl]
    rw [show (shiftInput pre i).get_cursor = pre.length + i.get_cursor from rfl]
    rw [shift_get_string]
    refine shiftP_bind_pure pre _ _ _ ?_
    intro s
    rfl

theorem shift_parse_text_script (pre : List Char) (i : Input) :
    parse_text_script (shiftInput pre i) =
      shiftP pre (parse_text_script i) := by
  simp only [parse_text_script, bind]
  rw [shift_find_str]
  cases hf : i.find_str ("</script".toList) with
  | none => rfl
  | some c =>
    simp only [Option.map_some']
    rw [show (shiftInput pre i).set_cursor (pre.length + c) =
        shiftInput pre (i.set_cursor c) from rfl]
    rw [show (shiftInput pre i).get_cursor = pre.length + i.get_cursor from rfl]
    rw [shift_get_string]
    refine shiftP_bind_pure pre _ _ _ ?_
    intro s
    rfl

theorem shift_text_step (pre : List Char) (i : Input) :
    text_step (shiftInput pre i) = shiftP pre (text_step i) := by
  simp only [text_step, shift_expect, bind]
  have hskip : (if i.expect ' ' || i.expect '\n' then
      (shiftInput pre i).next_char else shiftInput pre i) =
      shiftInput pre
        (if i.expect ' ' || i.expect '\n' then i.next_char else i) := by
    cases (i.expect ' ' || i.expect '\n') <;> rfl
  rw [hskip]
  rw [shift_expect]
  cases h1 : (if i.expect ' ' || i.expect '\n' then i.next_char else i).expect
      '<' with
  | true => rfl
  | false =>
    simp only [Bool.not_false, if_true]
    rw [shift_parse_text]
    refine shiftP_bind pre _ _ _ ?_
    intro n inp
    rfl

/-- The tokenizer loop is blind to a prefix lying wholly before the
cursor: running it on the shifted state produces the very same node
sequence (or error). -/
theorem shift_create_node_vec_loop (pre : List Char) :
    ∀ (fuel : Nat) (i : Input) (acc : List Node),
      create_node_vec_loop fuel (shiftInput pre i) acc =
        create_node_vec_loop fuel i acc := by
  intro fuel
  induction fuel with
  | zero => intro i acc; rfl
  | succ fuel ih =>
    intro i acc
    simp only [create_node_vec_loop, shift_is_end, shift_expect_str,
      shift_expect, bind]
    cases h1 : i.is_end with
    | true => rfl
    | false =>
      simp only [Bool.false_eq_true, if_false]
      cases h2 : i.expect_str ("<!--".toList) with
      | true =>
        simp only [if_true]
        rw [shift_parse_comment]
        cases hc : parse_comment i with
        | error e => rfl
        | ok r =>
          obtain ⟨n, inp⟩ := r
          simp only [shiftP, Except.bind]
          exact ih inp _
      | false =>
        simp only [Bool.false_eq_true, if_false]
        cases h3 : i.expect '<' with
        | true =>
          simp only [if_true]
          rw [shift_parse_tag]
          cases ht : parse_tag i with
          | error e => rfl
          | ok r =>
            obtain ⟨node, inp⟩ := r
            simp only [shiftP, Except.bind, shift_expect]
            cases h4 : ((match node.payload with
                | Payload.tag tag =>
                  tag.name == "script".toList && !tag.terminator
                | _ => false) && !inp.expect '<') with
            | true =>
              simp only [if_true]
              rw [shift_parse_text_script]
              cases hs : parse_text_script inp with
              | error e => rfl
              | ok r2 =>
                obtain ⟨tn, inp2⟩ := r2
                simp only [shiftP, Except.bind]
                exact ih inp2 _
            | false =>
              simp only [Bool.false_eq_true, if_false]
              exact ih inp _
        | false =>
          simp only [Bool.false_eq_true, if_false]
          rw [shift_text_step]
          cases hts : text_step i with
          | error e => rfl
          | ok r =>
            obtain ⟨onode, inp⟩ := r
            simp only [shiftP, Except.bind]
            cases onode with
            | none => exact ih inp _
            | some n => exact ih inp _

/-- The leading skip loop stops exactly at the first `<` at or after the
cursor. -/
theorem skip_to_lt_spec :
    ∀ (k fuel : Nat) (s : List Char) (c : Nat),
      (∀ j, j < k → s.get? (c + j) ≠ some '<') →
      s.get? (c + k) = some '<' →
      k < fuel →
      skip_to_lt fuel ⟨s, c⟩ = Except.ok ⟨s, c + k⟩ := by
  intro k
  induction k with
  | zero =>
    intro fuel s c _ hlt hfuel
    obtain ⟨f, rfl⟩ : ∃ f, fuel = f + 1 := ⟨fuel - 1, by omega⟩
    have hlt' : s.get? c = some '<' := hlt
    have hexp : (⟨s, c⟩ : Input).expect '<' = true := by
      simp only [Input.expect]
      rw [hlt']
      rfl
    simp only [skip_to_lt, hexp, if_true]
    rfl
  | succ k ihk =>
    intro fuel s c hpre hlt hfuel
    obtain ⟨f, rfl⟩ : ∃ f, fuel = f + 1 := ⟨fuel - 1, by omega⟩
    have hne : s.get? c ≠ some '<' := by
      have := hpre 0 (by omega)
      exact this
    have hexp : (⟨s, c⟩ : Input).expect '<' = false := by
      simp only [Input.expect, beq_eq_false_iff_ne, ne_eq]
      exact hne
    simp only [skip_to_lt, hexp, Bool.false_eq_true, if_false]
    have hpre' : ∀ j, j < k → s.get? (c + 1 + j) ≠ some '<' := by
      intro j hj
      have := hpre (j + 1) (by omega)
      have heq : c + (j + 1) = c + 1 + j := by omega
      rw [heq] at this
      exact this
    have hlt' : s.get? (c + 1 + k) = some '<' := by
      have heq : c + (k + 1) = c + 1 + k := by omega
      rw [heq] at hlt
      exact hlt
    have := ihk f s (c + 1) hpre' hlt' (by omega)
    have hcc : c + (k + 1) = c + 1 + k := by omega
    rw [hcc]
    exact this

/-- Claim C10: for every input whose first `<` sits after a `<`-free
prefix, the tokenizer — and hence everything downstream — behaves exactly
as if the prefix were absent: the characters before the first `<` are
skipped before tokenization begins and appear in no node of the flat
sequence or of the tree.  Concretely `abc<a>x</a>` parses identically to
`<a>x</a>`. -/
theorem C10_theorem :
    (∀ (fuel : Nat) (pre rest : List Char),
        (∀ ch ∈ pre, ch ≠ '<') →
        rest.head? = some '<' →
        pre.length < fuel →
        create_node_vec fuel (Input.new (pre ++ rest)) =
          create_node_vec fuel (Input.new rest)) ∧
    parse ("abc<a>x</a>".toList) = parse ("<a>x</a>".toList) := by
  refine ⟨?_, by decide⟩
  intro fuel pre rest hpre hhead hfuel
  unfold create_node_vec
  simp only [bind]
  have hskipL : skip_to_lt fuel ⟨pre ++ rest, 0⟩ =
      Except.ok ⟨pre ++ rest, 0 + pre.length⟩ := by
    refine skip_to_lt_spec pre.length fuel _ 0 ?_ ?_ hfuel
    · intro j hj hcontra
      have hj0 : (0 : Nat) + j = j := by omega
      rw [hj0, List.get?_append hj] at hcontra
      exact hpre '<' (List.get?_mem hcontra) rfl
    · have hj0 : (0 : Nat) + pre.length = pre.length := by omega
      rw [hj0, List.get?_append_right (Nat.le_refl _)]
      have : pre.length - pre.length = 0 := by omega
      rw [this, List.get?_zero]
      exact hhead
  have hskipR : skip_to_lt fuel ⟨rest, 0⟩ = Except.ok ⟨rest, 0⟩ := by
    have h0 := skip_to_lt_spec 0 fuel rest 0 (by intro j hj; omega)
      (by rw [List.get?_zero]; exact hhead) (by omega)
    exact h0
  show Except.bind (skip_to_lt fuel ⟨pre ++ rest, 0⟩)
      (fun input => create_node_vec_loop fuel input []) =
    Except.bind (skip_to_lt fuel ⟨rest, 0⟩)
      (fun input => create_node_vec_loop fuel input [])
  rw [hskipL, hskipR]
  simp only [Except.bind]
  have hsh : (⟨pre ++ rest, 0 + pre.length⟩ : Input) =
      shiftInput pre ⟨rest, 0⟩ := by
    rw [show (0 : Nat) + pre.length = pre.length + 0 from by omega]
    rfl
  rw [hsh, shift_create_node_vec_loop]

/-- Witness for C10: the prefix-invariance applied to the concrete prefix
`abc` before `<a>x</a>`. -/
theorem C10_witness :
    create_node_vec 20 (Input.new ("abc".toList ++ "<a>x</a>".toList)) =
      create_node_vec 20 (Input.new ("<a>x</a>".toList)) :=
  C10_theorem.1 20 ("abc".toList) ("<a>x</a>".toList) (by decide) (by decide)
    (by decide)

end HtmlRust
